import Mathlib

/-!
Verification development for the sherpa repository-to-text pipeline.

Each Go function that the claims depend on is shallowly embedded as an
executable Lean definition, translated from the Go source:
  - `pkg/utils` (ParseSize, IsTextFile, PatternMatcher, path helpers),
  - `internal/pipeline/filter.go` and `internal/processor/repo.go`,
  - `internal/generators/llm.go` (size guards and document assembly),
  - `pkg/tree/builder.go` (BuildProjectTree),
  - `internal/adapters/local/client.go` (sanitizePath, GetFileContent,
    GetMultipleFiles) and the GitHub/GitLab clients' GetMultipleFiles.

Go machine integers are modelled as `Int` (with an explicit two's-complement
wrap where an overflow could matter), Go strings as `String` / `List Char`
(rune level), and the filesystem / network as explicit oracle functions, so
that every definition is executable on concrete inputs.
-/

namespace Sherpa

/-- Split a character list at every `/`, keeping empty components.  This is the
rune-level behaviour of Go `strings.Split(s, "/")` for non-empty separators. -/
def splitSlashData : List Char → List (List Char)
  | [] => [[]]
  | c :: cs =>
    if c = '/' then [] :: splitSlashData cs
    else
      match splitSlashData cs with
      | [] => [[c]]
      | h :: t => (c :: h) :: t

/-- Go `strings.Split(s, "/")` on Lean strings. -/
def goSplitSlash (s : String) : List String :=
  (splitSlashData s.data).map (fun l => String.mk l)

/-- Rejoin with `/`: the inverse of `splitSlashData`. -/
def joinSlashData : List (List Char) → List Char
  | [] => []
  | [l] => l
  | l :: ls => l ++ '/' :: joinSlashData ls

theorem splitSlashData_ne_nil (l : List Char) : splitSlashData l ≠ [] := by
  induction l with
  | nil => simp [splitSlashData]
  | cons c cs ih =>
    simp only [splitSlashData]
    split
    · simp
    · cases h : splitSlashData cs with
      | nil => exact absurd h ih
      | cons h t => simp

theorem joinSlashData_splitSlashData (l : List Char) :
    joinSlashData (splitSlashData l) = l := by
  induction l with
  | nil => rfl
  | cons c cs ih =>
    simp only [splitSlashData]
    split
    · rename_i hc
      subst hc
      cases h : splitSlashData cs with
      | nil => exact absurd h (splitSlashData_ne_nil cs)
      | cons x t =>
        rw [h] at ih
        simp [joinSlashData, ih]
  -- the non-slash branch
    · cases h : splitSlashData cs with
      | nil => exact absurd h (splitSlashData_ne_nil cs)
      | cons x t =>
        rw [h] at ih
        cases t with
        | nil => simpa [joinSlashData] using ih
        | cons y t2 => simpa [joinSlashData] using ih

/-- `splitSlashData` is injective (used to transport distinctness of paths to
distinctness of their component lists). -/
theorem splitSlashData_injective {l₁ l₂ : List Char}
    (h : splitSlashData l₁ = splitSlashData l₂) : l₁ = l₂ := by
  have := congrArg joinSlashData h
  rwa [joinSlashData_splitSlashData, joinSlashData_splitSlashData] at this

theorem goSplitSlash_injective {s₁ s₂ : String}
    (h : goSplitSlash s₁ = goSplitSlash s₂) : s₁ = s₂ := by
  apply String.ext
  apply splitSlashData_injective
  have hinj : Function.Injective (fun l : List Char => String.mk l) := by
    intro a b hab
    simpa using congrArg String.data hab
  exact List.map_injective_iff.mpr hinj h

/-- Go `strings.Contains(hay, needle)` at rune level. -/
def containsSeq (needle : List Char) : List Char → Bool
  | [] => needle.isPrefixOf []
  | c :: cs => needle.isPrefixOf (c :: cs) || containsSeq needle cs

/-- Go `strings.Contains` on strings. -/
def goContains (hay needle : String) : Bool :=
  containsSeq needle.data hay.data

/-- Go `strings.HasSuffix`. -/
def goHasSuffix (s suffix : String) : Bool :=
  List.isSuffixOf suffix.data s.data

/-- Go `strings.HasPrefix`. -/
def goStartsWith (s pre : String) : Bool :=
  List.isPrefixOf pre.data s.data

/-- ASCII branch of Go `unicode.ToUpper`; the inputs relevant here (size
strings) are ASCII, where Go and this model agree. -/
def charUpper (c : Char) : Char :=
  if 'a' ≤ c ∧ c ≤ 'z' then Char.ofNat (c.toNat - 32) else c

/-- ASCII branch of Go `unicode.ToLower`. -/
def charLower (c : Char) : Char :=
  if 'A' ≤ c ∧ c ≤ 'Z' then Char.ofNat (c.toNat + 32) else c

/-- Go `strings.ToUpper` (ASCII-faithful model). -/
def goToUpper (s : String) : String :=
  String.mk (s.data.map charUpper)

/-- Go `strings.ToLower` (ASCII-faithful model). -/
def goToLower (s : String) : String :=
  String.mk (s.data.map charLower)

/-- The ASCII white-space characters trimmed by Go `strings.TrimSpace`
(`unicode.IsSpace` restricted to ASCII, where the modelled inputs live). -/
def isSpaceChar (c : Char) : Bool :=
  c = ' ' || c = '\t' || c = '\n' || c = Char.ofNat 11 || c = Char.ofNat 12 || c = '\r'

/-- Go `strings.TrimSpace` (ASCII-faithful model). -/
def goTrimSpace (s : String) : String :=
  String.mk (((s.data.dropWhile isSpaceChar).reverse.dropWhile isSpaceChar).reverse)

/-- Go `path/filepath.Base` on Unix: last element of the path after removing
trailing slashes; `"."` for the empty path, `"/"` for all-slash paths. -/
def goBase (p : String) : String :=
  if p = "" then "."
  else
    let stripped := (p.data.reverse.dropWhile (fun c => c = '/'))
    if stripped = [] then "/"
    else String.mk ((stripped.takeWhile (fun c => c ≠ '/')).reverse)

/-! ## Data model (`pkg/models/types.go`) -/

/-- `models.RepositoryTree`: one entry of a repository tree listing. -/
structure RepositoryTree where
  id : String
  name : String
  type : String
  path : String
  mode : String
deriving DecidableEq, Repr

/-- `models.FileInfo`: per-file fetch outcome.  `size` models the Go `int64`
field; `error` models the `error` field as an optional message. -/
structure FileInfo where
  path : String
  name : String
  size : Int
  content : String
  isText : Bool
  isBinary : Bool
  isDir : Bool
  error : Option String
deriving DecidableEq, Repr

/-- The zero `models.FileInfo` value (Go's zero struct). -/
def FileInfo.zero : FileInfo :=
  { path := "", name := "", size := 0, content := "", isText := false,
    isBinary := false, isDir := false, error := none }

instance : Inhabited FileInfo := ⟨FileInfo.zero⟩

/-- `models.ProcessingConfig` (the fields the modelled code reads). -/
structure ProcessingConfig where
  ignore : List String
  includeOnly : List String
  maxFileSize : String
  skipBinary : Bool
  maxConcurrency : Int
  maxMemoryPerFile : Int
  maxTotalMemory : Int
  maxFiles : Int
deriving DecidableEq, Repr

/-- `models.TreeNode`: a node of the rendered project tree. -/
inductive TreeNode where
  | mk (name : String) (path : String) (size : Int) (isDir : Bool)
      (children : List TreeNode)

/-- Field accessor for `TreeNode.name`. -/
def TreeNode.name : TreeNode → String
  | .mk n _ _ _ _ => n

/-- Field accessor for `TreeNode.path`. -/
def TreeNode.path : TreeNode → String
  | .mk _ p _ _ _ => p

/-- Field accessor for `TreeNode.size`. -/
def TreeNode.size : TreeNode → Int
  | .mk _ _ s _ _ => s

/-- Field accessor for `TreeNode.isDir`. -/
def TreeNode.isDir : TreeNode → Bool
  | .mk _ _ _ d _ => d

/-- Field accessor for `TreeNode.children`. -/
def TreeNode.children : TreeNode → List TreeNode
  | .mk _ _ _ _ c => c

/-! ## `ParseSize` (`pkg/utils/files.go` and the identical private copy in
`internal/processor/repo.go`) -/

/-- Errors `ParseSize` can report. -/
inductive SizeError where
  | invalidFormat (s : String)
  | invalidNumber (s : String)
  | unknownUnit (u : String)
deriving DecidableEq, Repr

/-- The groups captured by the regular expression
`^(\d+(?:\.\d+)?)\s*([KMGT]?B)$`: integer digits, optional fraction digits,
and the unit string. -/
structure SizeMatch where
  intDigits : List Char
  fracDigits : List Char
  hasFrac : Bool
  unit : String
deriving DecidableEq, Repr

/-- Decide whether a character is an ASCII digit. -/
def isDigitChar (c : Char) : Bool :=
  '0' ≤ c && c ≤ '9'

/-- The character class `\s` of Go's regexp package: `[\t\n\f\r ]`. -/
def isRegexSpace (c : Char) : Bool :=
  c = '\t' || c = '\n' || c = Char.ofNat 12 || c = '\r' || c = ' '

/-- Parse the unit tail `([KMGT]?B)$` of the size regex. -/
def parseSizeUnit : List Char → Option String
  | ['B'] => some "B"
  | [u, 'B'] =>
    if u = 'K' || u = 'M' || u = 'G' || u = 'T' then some (String.mk [u, 'B']) else none
  | _ => none

/-- Direct implementation of the anchored regex
`^(\d+(?:\.\d+)?)\s*([KMGT]?B)$` used by `ParseSize`. -/
def sizeRegexMatch (s : String) : Option SizeMatch :=
  let l := s.data
  let d1 := l.takeWhile isDigitChar
  let r1 := l.dropWhile isDigitChar
  if d1 = [] then none
  else
    match r1 with
    | '.' :: r2 =>
      let d2 := r2.takeWhile isDigitChar
      let r3 := r2.dropWhile isDigitChar
      if d2 = [] then none
      else
        match parseSizeUnit (r3.dropWhile isRegexSpace) with
        | some u => some { intDigits := d1, fracDigits := d2, hasFrac := true, unit := u }
        | none => none
    | _ =>
      match parseSizeUnit (r1.dropWhile isRegexSpace) with
      | some u => some { intDigits := d1, fracDigits := [], hasFrac := false, unit := u }
      | none => none

/-- Numeric value of a digit list. -/
def digitsToNat : List Char → Nat
  | [] => 0
  | c :: cs => digitsToNat cs + (c.toNat - 48) * 10 ^ cs.length

/-- The multiplier table of `ParseSize`; `TB` is deliberately absent. -/
def sizeMultiplier : String → Option Int
  | "B" => some 1
  | "KB" => some 1024
  | "MB" => some (1024 * 1024)
  | "GB" => some (1024 * 1024 * 1024)
  | _ => none

/-- `utils.ParseSize` / processor `parseSize`: trim and upper-case the input,
match it against `^(\d+(?:\.\d+)?)\s*([KMGT]?B)$`, look the unit up in the
multiplier table and return `int64(number * multiplier)`.  The numeric value
is computed here in exact rational arithmetic
(`digits * multiplier / 10^fracLen`, truncated), which agrees with the Go
`float64` computation on all inputs whose value is exactly representable
(in particular every integer size used below). -/
def parseSize (sizeStr : String) : Except SizeError Int :=
  let s := goToUpper (goTrimSpace sizeStr)
  match sizeRegexMatch s with
  | none => .error (.invalidFormat s)
  | some m =>
    match sizeMultiplier m.unit with
    | none => .error (.unknownUnit m.unit)
    | some mult =>
      let num := digitsToNat (m.intDigits ++ m.fracDigits)
      .ok ((num : Int) * mult / (10 ^ m.fracDigits.length : Nat))

/-! ## Go `path/filepath.Match` (Unix), at rune level.

The Go implementation iterates bytes; on valid UTF-8 input (all Lean strings)
the byte-wise literal comparisons and rune decodes below coincide with the
original.  `Except Unit` models the `ErrBadPattern` error. -/

/-- The scan loop of Go `scanChunk`: split the pattern after the leading stars
into the next chunk and the remaining pattern, treating `*` inside `[...]` as
a literal. -/
def scanChunkEnd : List Char → Bool → List Char × List Char
  | [], _ => ([], [])
  | c :: cs, inrange =>
    if c = '\\' then
      match cs with
      | [] => ([c], [])
      | d :: ds =>
        let (ch, r) := scanChunkEnd ds inrange
        (c :: d :: ch, r)
    else if c = '[' then
      let (ch, r) := scanChunkEnd cs true
      (c :: ch, r)
    else if c = ']' then
      let (ch, r) := scanChunkEnd cs false
      (c :: ch, r)
    else if c = '*' && !inrange then ([], c :: cs)
    else
      let (ch, r) := scanChunkEnd cs inrange
      (c :: ch, r)

/-- Go `scanChunk`: returns (saw a leading star, next chunk, rest). -/
def scanChunk (p : List Char) : Bool × List Char × List Char :=
  let p1 := p.dropWhile (fun c => c = '*')
  let (ch, r) := scanChunkEnd p1 false
  (decide (p.head? = some '*'), ch, r)

/-- Go `getEsc`: read one (possibly escaped) character of a range inside a
character class. -/
def getEsc : List Char → Except Unit (Char × List Char)
  | [] => .error ()
  | c :: cs =>
    if c = '-' || c = ']' then .error ()
    else if c = '\\' then
      match cs with
      | [] => .error ()
      | d :: ds => if ds = [] then .error () else .ok (d, ds)
    else if cs = [] then .error () else .ok (c, cs)

theorem getEsc_length_lt {l : List Char} {c : Char} {rest : List Char}
    (h : getEsc l = .ok (c, rest)) : rest.length < l.length := by
  match l with
  | [] => simp [getEsc] at h
  | a :: as =>
    simp only [getEsc] at h
    split at h
    · exact absurd h (by simp)
    · split at h
      · match as with
        | [] => simp at h
        | d :: ds =>
          simp only at h
          split at h
          · exact absurd h (by simp)
          · simp only [Except.ok.injEq, Prod.mk.injEq] at h
            simp [← h.2]
            omega
      · split at h
        · exact absurd h (by simp)
        · simp only [Except.ok.injEq, Prod.mk.injEq] at h
          simp [← h.2]

/-- The range-parsing loop inside Go `matchChunk`'s `[` case.  `r` is the rune
being matched (Go computes the match even while `failed`). -/
def parseRanges (r : Char) (chunk : List Char) (nrange : Nat) (matched : Bool) :
    Except Unit (List Char × Bool) :=
  if chunk.head? = some ']' ∧ nrange > 0 then .ok (chunk.tail, matched)
  else
    match hlo : getEsc chunk with
    | .error _ => .error ()
    | .ok (lo, ch1) =>
      if ch1.head? = some '-' then
        match hhi : getEsc ch1.tail with
        | .error _ => .error ()
        | .ok (hi, ch2) =>
          parseRanges r ch2 (nrange + 1) (matched || (lo ≤ r && r ≤ hi))
      else
        parseRanges r ch1 (nrange + 1) (matched || (lo ≤ r && r ≤ lo))
termination_by chunk.length
decreasing_by
  · have h1 := getEsc_length_lt hlo
    have h2 := getEsc_length_lt hhi
    have h3 : ch1.tail.length ≤ ch1.length := by
      cases ch1 <;> simp
    omega
  · have h1 := getEsc_length_lt hlo
    omega

theorem parseRanges_length_lt_aux (r : Char) :
    ∀ (k : Nat) (chunk : List Char), chunk.length ≤ k → ∀ (n : Nat) (m : Bool)
      (rest : List Char) (b : Bool),
      parseRanges r chunk n m = .ok (rest, b) → rest.length < chunk.length := by
  intro k
  induction k with
  | zero =>
    intro chunk hk n m rest b h
    have hnil : chunk = [] := List.eq_nil_of_length_eq_zero (Nat.le_zero.mp hk)
    subst hnil
    rw [parseRanges] at h
    simp [getEsc] at h
  | succ k ih =>
    intro chunk hk n m rest b h
    rw [parseRanges] at h
    split at h
    · rename_i hcond
      cases h
      cases chunk with
      | nil => simp at hcond
      | cons a as => simp
    · split at h
      · exact absurd h (by simp)
      · rename_i lo ch1 hlo
        have h1 := getEsc_length_lt hlo
        split at h
        · split at h
          · exact absurd h (by simp)
          · rename_i hi ch2 hhi
            have h2 := getEsc_length_lt hhi
            have h4 : ch1.tail.length ≤ ch1.length := by
              cases ch1 <;> simp
            have h3 := ih ch2 (by omega) _ _ _ _ h
            omega
        · have h3 := ih ch1 (by omega) _ _ _ _ h
          omega

theorem parseRanges_length_lt {r : Char} {chunk : List Char} {n : Nat} {m : Bool}
    {rest : List Char} {b : Bool}
    (h : parseRanges r chunk n m = .ok (rest, b)) : rest.length < chunk.length :=
  parseRanges_length_lt_aux r chunk.length chunk (Nat.le_refl _) n m rest b h

/-- Go `matchChunk`: match a chunk against the head of `s`.  Returns the
remaining name and whether the chunk matched; once `failed` the loop keeps
checking the chunk's syntax without consuming `s`, exactly as in Go. -/
def matchChunk : (chunk : List Char) → (s : List Char) → Bool →
    Except Unit (List Char × Bool)
  | [], s, failed => if failed then .ok ([], false) else .ok (s, true)
  | c :: cr, s, failed =>
    let failed1 := failed || s.isEmpty
    if c = '[' then
      let r := if failed1 then Char.ofNat 0 else s.headD (Char.ofNat 0)
      let s1 := if failed1 then s else s.tail
      let negch : Bool × List Char :=
        if cr.head? = some '^' then (true, cr.tail) else (false, cr)
      match hpr : parseRanges r negch.2 0 false with
      | .error _ => .error ()
      | .ok (ch1, matched) =>
        matchChunk ch1 s1 (failed1 || (matched == negch.1))
    else if c = '?' then
      if failed1 then matchChunk cr s failed1
      else matchChunk cr s.tail (decide (s.headD (Char.ofNat 0) = '/'))
    else if c = '\\' then
      match cr with
      | [] => .error ()
      | d :: dr =>
        if failed1 then matchChunk dr s failed1
        else matchChunk dr s.tail (decide (d ≠ s.headD (Char.ofNat 0)))
    else
      if failed1 then matchChunk cr s failed1
      else matchChunk cr s.tail (decide (c ≠ s.headD (Char.ofNat 0)))
termination_by chunk _ _ => chunk.length
decreasing_by
  · have h1 := parseRanges_length_lt hpr
    have h2 : negch.2.length ≤ cr.length := by
      unfold_let negch
      split
      · cases cr <;> simp
      · exact Nat.le_refl _
    simp only [List.length_cons]
    omega
  · simp only [List.length_cons]
    omega
  · simp only [List.length_cons]
    omega
  · simp only [List.length_cons]
    omega
  · simp only [List.length_cons]
    omega
  · simp only [List.length_cons]
    omega
  · simp only [List.length_cons]
    omega

theorem scanChunkEnd_rest_le_aux :
    ∀ (k : Nat) (l : List Char), l.length ≤ k → ∀ (inr : Bool),
      (scanChunkEnd l inr).2.length ≤ l.length := by
  intro k
  induction k with
  | zero =>
    intro l hl inr
    have hnil : l = [] := List.eq_nil_of_length_eq_zero (Nat.le_zero.mp hl)
    subst hnil
    simp [scanChunkEnd.eq_def]
  | succ k ih =>
    intro l hl inr
    match l with
    | [] => simp [scanChunkEnd.eq_def]
    | c :: cs =>
      rw [scanChunkEnd.eq_def]
      by_cases h1 : c = '\\'
      · simp only [if_pos h1]
        match cs with
        | [] => simp
        | d :: ds =>
          have hrec := ih ds (by simp at hl; omega) inr
          cases h : scanChunkEnd ds inr with
          | mk ch r =>
            rw [h] at hrec
            simp [h] at hrec ⊢
            omega
      · simp only [if_neg h1]
        by_cases h2 : c = '['
        · simp only [if_pos h2]
          have hrec := ih cs (by simp at hl; omega) true
          cases h : scanChunkEnd cs true with
          | mk ch r =>
            rw [h] at hrec
            simp [h] at hrec ⊢
            omega
        · simp only [if_neg h2]
          by_cases h3 : c = ']'
          · simp only [if_pos h3]
            have hrec := ih cs (by simp at hl; omega) false
            cases h : scanChunkEnd cs false with
            | mk ch r =>
              rw [h] at hrec
              simp [h] at hrec ⊢
              omega
          · simp only [if_neg h3]
            by_cases h4 : (decide (c = '*') && !inr) = true
            · rw [if_pos h4]
            · rw [if_neg h4]
              have hrec := ih cs (by simp at hl; omega) inr
              cases h : scanChunkEnd cs inr with
              | mk ch r =>
                rw [h] at hrec
                simp [h] at hrec ⊢
                omega

theorem scanChunkEnd_rest_le (l : List Char) (inr : Bool) :
    (scanChunkEnd l inr).2.length ≤ l.length :=
  scanChunkEnd_rest_le_aux l.length l (Nat.le_refl _) inr

theorem scanChunkEnd_rest_lt (c : Char) (cs : List Char) (hc : c ≠ '*') :
    (scanChunkEnd (c :: cs) false).2.length < (c :: cs).length := by
  rw [scanChunkEnd.eq_def]
  by_cases h1 : c = '\\'
  · simp only [if_pos h1]
    cases cs with
    | nil => simp
    | cons d ds =>
      have hrec := scanChunkEnd_rest_le ds false
      cases h : scanChunkEnd ds false with
      | mk ch r =>
        rw [h] at hrec
        simp [h] at hrec ⊢
        omega
  · simp only [if_neg h1]
    by_cases h2 : c = '['
    · simp only [if_pos h2]
      have hrec := scanChunkEnd_rest_le cs true
      cases h : scanChunkEnd cs true with
      | mk ch r =>
        rw [h] at hrec
        simp [h] at hrec ⊢
        omega
    · simp only [if_neg h2]
      by_cases h3 : c = ']'
      · simp only [if_pos h3]
        have hrec := scanChunkEnd_rest_le cs false
        cases h : scanChunkEnd cs false with
        | mk ch r =>
          rw [h] at hrec
          simp [h] at hrec ⊢
          omega
      · simp only [if_neg h3]
        have h4 : ¬((decide (c = '*') && !false) = true) := by
          simpa using hc
        rw [if_neg h4]
        have hrec := scanChunkEnd_rest_le cs false
        cases h : scanChunkEnd cs false with
        | mk ch r =>
          rw [h] at hrec
          simp [h] at hrec ⊢
          omega

theorem scanChunk_eq (p : List Char) :
    scanChunk p = (decide (p.head? = some '*'),
      scanChunkEnd (p.dropWhile (fun c => c = '*')) false) := by
  unfold scanChunk
  cases h : scanChunkEnd (p.dropWhile (fun c => c = '*')) false with
  | mk ch r => simp [h]

theorem scanChunk_rest_lt {p : List Char} (hp : p ≠ []) :
    (scanChunk p).2.2.length < p.length := by
  rw [scanChunk_eq]
  cases hd : p.dropWhile (fun c => c = '*') with
  | nil =>
    simp only [hd, scanChunkEnd]
    cases p with
    | nil => exact absurd rfl hp
    | cons a as => simp
  | cons c cs =>
    have hc : ¬(c = '*') := by
      have := List.head?_dropWhile_not (fun c => c = '*') p
      rw [hd] at this
      simpa using this
    have hlen : (c :: cs).length ≤ p.length := by
      have h1 : (p.dropWhile (fun c => c = '*')).length ≤ p.length :=
        (List.dropWhile_sublist _).length_le
      rw [hd] at h1
      exact h1
    have := scanChunkEnd_rest_lt c cs hc
    simp only [List.length_cons] at hlen this ⊢
    omega

/-- The inner `*`-skip loop of Go `Match`: try to match `chunk` at every rune
offset of the name until a separator; `rest` is the pattern remaining after
the chunk.  Returns the name remainder to continue with, if any. -/
def starLoop (chunk rest : List Char) : List Char → Except Unit (Option (List Char))
  | [] => .ok none
  | c :: cs =>
    if c = '/' then .ok none
    else
      match matchChunk chunk cs false with
      | .error _ => .error ()
      | .ok (t, ok) =>
        if ok then
          if rest = [] ∧ t ≠ [] then starLoop chunk rest cs
          else .ok (some t)
        else starLoop chunk rest cs

/-- The syntax-validation loop Go `Match` runs over the remaining pattern
before returning a non-match. -/
def checkRestSyntax : List Char → Except Unit Bool
  | [] => .ok false
  | c :: cs =>
    let p := c :: cs
    let sc := scanChunk p
    match matchChunk sc.2.1 [] false with
    | .error _ => .error ()
    | .ok _ => checkRestSyntax sc.2.2
termination_by p => p.length
decreasing_by
  exact scanChunk_rest_lt (by simp)

/-- The `Pattern` loop of Go `path/filepath.Match`. -/
def goMatchLoop : (pattern : List Char) → (name : List Char) → Except Unit Bool
  | [], name => .ok (decide (name = []))
  | pc :: pr, name =>
    let p := pc :: pr
    let sc := scanChunk p
    let star := sc.1
    let chunk := sc.2.1
    let rest := sc.2.2
    if star ∧ chunk = [] then .ok (!(name.contains '/'))
    else
      match matchChunk chunk name false with
      | .error _ => .error ()
      | .ok (t, ok) =>
        if ok ∧ (t = [] ∨ rest ≠ []) then goMatchLoop rest t
        else if star then
          match starLoop chunk rest name with
          | .error _ => .error ()
          | .ok (some t2) => goMatchLoop rest t2
          | .ok none => checkRestSyntax rest
        else checkRestSyntax rest
termination_by pattern _ => pattern.length
decreasing_by
  all_goals exact scanChunk_rest_lt (by simp)

/-- Go `path/filepath.Match(pattern, name)` on Unix; `.error` is
`ErrBadPattern`. -/
def goMatch (pattern name : String) : Except Unit Bool :=
  goMatchLoop pattern.data name.data

/-- `matched, err := goMatch ...; err == nil && matched`, the way every
call site consumes `filepath.Match`. -/
def goMatchOk (pattern name : String) : Bool :=
  match goMatch pattern name with
  | .ok true => true
  | _ => false

/-! ## `utils.PatternMatcher` (`pkg/utils/patterns.go`) and
`pipeline.FileFilter` (`internal/pipeline/filter.go`) -/

/-- `PatternMatcher.matchesPattern`: glob on the base name, glob on the full
path, directory pattern (trailing `/`), and finally the plain substring
fallback. -/
def matchesPattern (filePath pattern : String) : Bool :=
  goMatchOk pattern (goBase filePath) ||
  goMatchOk pattern filePath ||
  (goHasSuffix pattern "/" &&
    (let dirPattern := String.mk pattern.data.dropLast
     goContains filePath (dirPattern ++ "/") || goStartsWith filePath (dirPattern ++ "/"))) ||
  goContains filePath pattern

/-- `PatternMatcher.ShouldIgnore`. -/
def shouldIgnorePM (ignorePatterns : List String) (filePath : String) : Bool :=
  ignorePatterns.any (fun pattern => matchesPattern filePath pattern)

/-- `PatternMatcher.ShouldInclude`: vacuously true when no include patterns
are configured. -/
def shouldIncludePM (includePatterns : List String) (filePath : String) : Bool :=
  if includePatterns.isEmpty then true
  else includePatterns.any (fun pattern => matchesPattern filePath pattern)

/-- `FileFilter.FilterFiles` (`internal/pipeline/filter.go` lines 21-47):
ignore check first, then the unconditional retention of `tree` entries, then
the include check for files. -/
def filterFilesFF (ignorePatterns includePatterns : List String) :
    List RepositoryTree → List RepositoryTree
  | [] => []
  | file :: rest =>
    if shouldIgnorePM ignorePatterns file.path then
      filterFilesFF ignorePatterns includePatterns rest
    else if file.type = "tree" then
      file :: filterFilesFF ignorePatterns includePatterns rest
    else if !shouldIncludePM includePatterns file.path then
      filterFilesFF ignorePatterns includePatterns rest
    else file :: filterFilesFF ignorePatterns includePatterns rest

/-! ## The private matchers of `internal/processor/repo.go` (no substring
fallback, and the directory pattern has no `HasPrefix` disjunct: `Contains`
already subsumes it). -/

/-- `RepoProcessor.shouldIgnore` (repo.go lines 196-221). -/
def rpShouldIgnore (cfg : ProcessingConfig) (filePath : String) : Bool :=
  if cfg.ignore.isEmpty then false
  else
    cfg.ignore.any (fun pattern =>
      goMatchOk pattern (goBase filePath) ||
      goMatchOk pattern filePath ||
      (goHasSuffix pattern "/" &&
        goContains filePath (String.mk pattern.data.dropLast ++ "/")))

/-- `RepoProcessor.shouldInclude` (repo.go lines 224-241). -/
def rpShouldInclude (cfg : ProcessingConfig) (filePath : String) : Bool :=
  if cfg.includeOnly.isEmpty then true
  else
    cfg.includeOnly.any (fun pattern =>
      goMatchOk pattern (goBase filePath) || goMatchOk pattern filePath)

/-- `RepoProcessor.filterFiles` (repo.go lines 167-193). -/
def rpFilterFiles (cfg : ProcessingConfig) : List RepositoryTree → List RepositoryTree
  | [] => []
  | file :: rest =>
    if rpShouldIgnore cfg file.path then rpFilterFiles cfg rest
    else if file.type = "tree" then file :: rpFilterFiles cfg rest
    else if cfg.includeOnly.length > 0 && !rpShouldInclude cfg file.path then
      rpFilterFiles cfg rest
    else file :: rpFilterFiles cfg rest

/-! ## `RepoProcessor.ProcessRepository` (`internal/processor/repo.go`) -/

/-- Whether the per-file size limit of repo.go lines 107-114 drops `f`: the
limit is only enforced when `max_file_size` is set and parses. -/
def dropBySize (cfg : ProcessingConfig) (f : FileInfo) : Bool :=
  cfg.maxFileSize ≠ "" &&
    match parseSize cfg.maxFileSize with
    | .ok maxSize => f.size > maxSize
    | .error _ => false

/-- Whether the binary skip of repo.go lines 117-120 drops `f`. -/
def dropBinary (cfg : ProcessingConfig) (f : FileInfo) : Bool :=
  cfg.skipBinary && f.isBinary

/-- The synthetic zero-size directory `FileInfo` re-injected for each
directory entry (repo.go lines 134-143). -/
def dirFileInfo (d : RepositoryTree) : FileInfo :=
  { path := d.path, name := d.name, size := 0, content := "",
    isText := false, isBinary := false, isDir := true, error := none }

/-- The result assembled by `ProcessRepository` (the fields the claims are
about; `Repository`, timestamps and durations are presentation data). -/
structure ProcResult where
  files : List FileInfo
  totalFiles : Nat
  totalSize : Int
  errors : List String
deriving DecidableEq, Repr

/-- One iteration of the post-fetch loop of `ProcessRepository` (repo.go
lines 106-131): oversize drop, binary drop, error collection, keep. -/
def pfStep (cfg : ProcessingConfig) (acc : List FileInfo × Int × List String)
    (f : FileInfo) : List FileInfo × Int × List String :=
  if dropBySize cfg f then acc
  else if dropBinary cfg f then acc
  else
    match f.error with
    | some e => (acc.1, acc.2.1, acc.2.2 ++ [e])
    | none => (acc.1 ++ [f], acc.2.1 + f.size, acc.2.2)

/-- The post-fetch loop of `ProcessRepository` (repo.go lines 105-131)
followed by directory re-injection (lines 133-143) and result stamping
(lines 155-163): oversize drop, binary drop, error collection, then
`TotalFiles := len(processedFiles)` and `TotalSize := totalSize`. -/
def processFetched (cfg : ProcessingConfig) (files : List FileInfo)
    (dirs : List RepositoryTree) : ProcResult :=
  let acc := files.foldl (pfStep cfg) ([], 0, [])
  let processedFiles := acc.1 ++ dirs.map dirFileInfo
  { files := processedFiles
    totalFiles := processedFiles.length
    totalSize := acc.2.1
    errors := acc.2.2 }

/-- `ProcessRepository` (repo.go lines 33-164) with the provider abstracted:
`fetch` stands for `provider.GetMultipleFiles` applied to the requested
paths.  Metadata fetch, logging and timing are omitted; a provider error
aborts with an error exactly as in the source. -/
def processRepository (cfg : ProcessingConfig) (tree : List RepositoryTree)
    (fetch : List String → Except String (List FileInfo)) :
    Except String ProcResult :=
  let filteredFiles := rpFilterFiles cfg tree
  let directoryEntries := filteredFiles.filter (fun e => e.type = "tree")
  let fileEntries := filteredFiles.filter (fun e => ¬(e.type = "tree"))
  match fetch (fileEntries.map (fun e => e.path)) with
  | .error e => .error ("failed to fetch files: " ++ e)
  | .ok files => .ok (processFetched cfg files directoryEntries)

/-- Does the post-fetch loop keep `f` in the counted file list? -/
def keepFile (cfg : ProcessingConfig) (f : FileInfo) : Bool :=
  !dropBySize cfg f && !dropBinary cfg f && f.error.isNone

/-- The error contributed by `f` to the result's error list, if any. -/
def errContribution (cfg : ProcessingConfig) (f : FileInfo) : Option String :=
  if dropBySize cfg f then none
  else if dropBinary cfg f then none
  else f.error

/-! ## `Builder.BuildProjectTree` (`pkg/tree/builder.go`; the same algorithm
is duplicated in `internal/generators/llm.go` and
`internal/processor/repo.go`). -/

/-- `strings.Join(parts[:i+1], "/")` accumulated incrementally: the path of
the child named `part` below the node whose joined path is `pref`. -/
def childPath (pref part : String) : String :=
  if pref = "" then part else pref ++ "/" ++ part

/-- One step of `addFileToTree`: walk `parts` through a sibling list,
creating nodes (directories for interior parts, `file.IsDir` for the last)
or updating a found final node with the file's size and file-ness.
Faithful to builder.go lines 869-908: lookup is by `Name`, new nodes are
appended at the end, and a found node is only mutated when the file is a
non-directory at its final part. -/
def insertParts (f : FileInfo) : (parts : List String) → (pref : String) →
    (nodes : List TreeNode) → List TreeNode
  | [], _, nodes => nodes
  | [p], pref, [] =>
    [.mk p (childPath pref p) (if f.isDir then 0 else f.size) f.isDir []]
  | p :: q :: rest, pref, [] =>
    [.mk p (childPath pref p) 0 true (insertParts f (q :: rest) (childPath pref p) [])]
  | [p], pref, n :: ns =>
    if n.name = p then
      (if f.isDir then n else .mk n.name n.path f.size false n.children) :: ns
    else n :: insertParts f [p] pref ns
  | p :: q :: rest, pref, n :: ns =>
    if n.name = p then
      .mk n.name n.path n.size n.isDir
        (insertParts f (q :: rest) (childPath pref p) n.children) :: ns
    else n :: insertParts f (p :: q :: rest) pref ns
termination_by parts _ nodes => (parts.length, nodes.length)

/-- Insert one `FileInfo` into the forest, skipping empty paths
(builder.go lines 856-858). -/
def insertFile (nodes : List TreeNode) (f : FileInfo) : List TreeNode :=
  if f.path = "" then nodes
  else insertParts f (goSplitSlash f.path) "" nodes

/-- The unsorted forest built by the `addFileToTree` loop. -/
def buildForest (files : List FileInfo) : List TreeNode :=
  files.foldl insertFile []

/-- The comparator of `sortTreeNodesRecursive` as a total preorder:
`sort.Slice` sorts by the strict `less` where directories come first and
ties break on `Name`; `nodeLe a b` is `¬ less b a`. -/
def nodeLe (a b : TreeNode) : Bool :=
  if a.isDir ≠ b.isDir then a.isDir else a.name ≤ b.name

/-- Propositional form of `nodeLe`, used with `List.insertionSort`. -/
def nodeLeP (a b : TreeNode) : Prop :=
  nodeLe a b = true

instance : DecidableRel nodeLeP := fun a b => by
  unfold nodeLeP
  infer_instance

theorem nodeLe_total (a b : TreeNode) : nodeLe a b = true ∨ nodeLe b a = true := by
  unfold nodeLe
  by_cases h : a.isDir = b.isDir
  · have h1 : ¬(a.isDir ≠ b.isDir) := by simpa using h
    have h2 : ¬(b.isDir ≠ a.isDir) := by simp [h]
    rw [if_neg h1, if_neg h2]
    rcases le_total a.name b.name with hle | hle
    · exact Or.inl (decide_eq_true hle)
    · exact Or.inr (decide_eq_true hle)
  · have h2 : b.isDir ≠ a.isDir := fun hh => h hh.symm
    rw [if_pos h, if_pos h2]
    cases hA : a.isDir
    · refine Or.inr ?_
      cases hB : b.isDir
      · exact absurd (hA.trans hB.symm) h
      · rfl
    · exact Or.inl rfl

theorem nodeLe_trans (a b c : TreeNode) (hab : nodeLe a b = true)
    (hbc : nodeLe b c = true) : nodeLe a c = true := by
  unfold nodeLe at hab hbc ⊢
  cases hA : a.isDir <;> cases hB : b.isDir <;> cases hC : c.isDir <;>
      simp [hA, hB, hC] at hab hbc ⊢ <;> try exact le_trans hab hbc

instance : IsTotal TreeNode nodeLeP :=
  ⟨fun a b => nodeLe_total a b⟩

instance : IsTrans TreeNode nodeLeP :=
  ⟨fun a b c => nodeLe_trans a b c⟩

mutual

/-- Recursively sort a node's children (`sortTreeNodesRecursive`).
`sort.Slice` is an unstable sort, but sibling names are pairwise distinct by
construction, so the sorted order is unique and any correct sorting
algorithm is a faithful model; insertion sort is used because it evaluates
by kernel reduction. -/
def sortNode : TreeNode → TreeNode
  | .mk name path size isDir children =>
    .mk name path size isDir (List.insertionSort nodeLeP (sortNodeList children))

/-- Pointwise `sortNode` over a sibling list. -/
def sortNodeList : List TreeNode → List TreeNode
  | [] => []
  | n :: ns => sortNode n :: sortNodeList ns

end

/-- Sort a whole forest recursively (what `BuildProjectTree` does to the
root's children). -/
def sortForest (nodes : List TreeNode) : List TreeNode :=
  List.insertionSort nodeLeP (sortNodeList nodes)

/-- `Builder.BuildProjectTree` (builder.go lines 848-866): early return on an
empty file list, insert every non-empty path, then sort recursively. -/
def buildProjectTree (files : List FileInfo) : List TreeNode :=
  if files.isEmpty then []
  else sortForest (buildForest files)

/-- Adjacent-pair check: the sibling list is ordered by `nodeLe`
(directories first, then alphabetical). -/
def pairwiseLeOk : List TreeNode → Bool
  | [] => true
  | [_] => true
  | a :: b :: rest => nodeLe a b && pairwiseLeOk (b :: rest)

mutual

/-- Decidable check that every sibling list inside the node is ordered
directories-first and alphabetically within each kind. -/
def nodeSortedOk : TreeNode → Bool
  | .mk _ _ _ _ children => pairwiseLeOk children && allNodesSortedOk children

/-- `nodeSortedOk` over a list. -/
def allNodesSortedOk : List TreeNode → Bool
  | [] => true
  | n :: ns => nodeSortedOk n && allNodesSortedOk ns

end

/-- Decidable check that a forest is recursively ordered. -/
def forestSortedOk (nodes : List TreeNode) : Bool :=
  pairwiseLeOk nodes && allNodesSortedOk nodes

/-- Names of a sibling list. -/
def nodeNames (ns : List TreeNode) : List String :=
  ns.map TreeNode.name

/-- Recursive well-formedness of a forest: sibling names are distinct at
every level.  This is an invariant of `BuildProjectTree`'s insertion loop
(a node is only appended when no sibling has its name). -/
def forestWF : List TreeNode → Prop
  | [] => True
  | .mk nm _ _ _ ch :: ns => forestWF ch ∧ nm ∉ nodeNames ns ∧ forestWF ns

/-- The in-place update `addFileToTree` applies to the sibling node whose
name matches the current path part. -/
def updOne (f : FileInfo) (p : String) (rest : List String) (pref : String)
    (n : TreeNode) : TreeNode :=
  match rest with
  | [] => if f.isDir then n else .mk n.name n.path f.size false n.children
  | q :: r2 =>
    .mk n.name n.path n.size n.isDir
      (insertParts f (q :: r2) (childPath pref p) n.children)

/-! ## `generators.Generator` (`internal/generators/llm.go`) -/

/-- `MaxFileSize = 5 * 1024 * 1024` (llm.go line 105). -/
def maxFileSizeConst : Int := 5 * 1024 * 1024

/-- `MaxTotalSize = 100 * 1024 * 1024` (llm.go line 106). -/
def maxTotalSizeConst : Int := 100 * 1024 * 1024

/-- `WarningFileSize = 1024 * 1024` (llm.go line 107). -/
def warningFileSizeConst : Int := 1024 * 1024

/-- The two errors `validateFileSize` can return. -/
inductive ValidationError where
  | fileTooLarge (path : String) (size : Int)
  | totalTooLarge (total : Int)
deriving DecidableEq, Repr

/-- `Generator.validateFileSize` (llm.go lines 174-198): skip directories,
reject any single file above `MaxFileSize`, accumulate sizes and reject as
soon as the running total exceeds `MaxTotalSize`. -/
def validateFileSize : List FileInfo → Int → Option ValidationError
  | [], _ => none
  | f :: rest, total =>
    if f.isDir then validateFileSize rest total
    else if f.size > maxFileSizeConst then some (.fileTooLarge f.path f.size)
    else
      let total1 := total + f.size
      if total1 > maxTotalSizeConst then some (.totalTooLarge total1)
      else validateFileSize rest total1

/-- `Generator.getFilePriority` (llm.go lines 378-415). -/
def getFilePriority (f : FileInfo) : Nat :=
  let fileName := goToLower (goBase f.path)
  let filePath := goToLower f.path
  if goContains fileName "main" || goContains fileName "index" then 1
  else if ["json", "yaml", "yml", "toml", "env"].any
      (fun e => goHasSuffix fileName ("." ++ e)) then 2
  else if goHasSuffix fileName ".md" || goStartsWith fileName "readme" then 3
  else if ["go", "py", "js", "ts", "java", "c", "cpp", "rs", "rb"].any
      (fun e => goHasSuffix fileName ("." ++ e)) then 4
  else if goContains filePath "test" || goContains fileName "spec" then 6
  else 5

/-- The comparator of `sortFilesByImportance` (llm.go lines 363-372) as a
total preorder: priority first, then path. -/
def fileImportanceLe (a b : FileInfo) : Prop :=
  getFilePriority a < getFilePriority b ∨
    (getFilePriority a = getFilePriority b ∧ a.path ≤ b.path)

instance : DecidableRel fileImportanceLe := fun a b => by
  unfold fileImportanceLe
  infer_instance

instance : IsTotal FileInfo fileImportanceLe := by
  constructor
  intro a b
  unfold fileImportanceLe
  rcases Nat.lt_trichotomy (getFilePriority a) (getFilePriority b) with h | h | h
  · exact Or.inl (Or.inl h)
  · rcases le_total a.path b.path with hp | hp
    · exact Or.inl (Or.inr ⟨h, hp⟩)
    · exact Or.inr (Or.inr ⟨h.symm, hp⟩)
  · exact Or.inr (Or.inl h)

instance : IsTrans FileInfo fileImportanceLe := by
  constructor
  intro a b c hab hbc
  unfold fileImportanceLe at *
  rcases hab with h1 | ⟨h1, h1p⟩ <;> rcases hbc with h2 | ⟨h2, h2p⟩
  · exact Or.inl (h1.trans h2)
  · exact Or.inl (h2 ▸ h1)
  · exact Or.inl (h1 ▸ h2)
  · exact Or.inr ⟨h1.trans h2, le_trans h1p h2p⟩

/-- `Generator.sortFilesByImportance`: a sorted copy of the file list.
`sort.Slice` is unstable; files tying on both priority and path may come out
in any relative order, and insertion sort fixes one admissible outcome. -/
def sortFilesByImportance (files : List FileInfo) : List FileInfo :=
  List.insertionSort fileImportanceLe files

/-- One rendered piece of the `llms-full.txt` document.  Each block stands
for one group of `WriteString` calls of `GenerateLLMsFullText`; the literal
formatting (byte counts rendered by `formatBytes`, the syntax-highlighting
language tag) is presentation detail carried by the fields. -/
inductive Block where
  /-- The single `## Error:` block emitted when validation fails. -/
  | errorBlock (e : ValidationError)
  /-- The header, repository information and project-structure sections
  produced by `GenerateLLMsTextWithoutUnixTree`, followed by the
  `## File Contents` heading. -/
  | header (totalFiles : Nat) (totalSize : Int) (tree : List TreeNode)
  /-- A `### path` section whose body is the `[File too large to include]`
  placeholder (llm.go lines 146-150). -/
  | tooLargePlaceholder (path : String) (size : Int)
  /-- A `### path` section with the file's fenced content; `largeWarning` is
  the `(Large file: ...)` annotation of llm.go lines 152-157. -/
  | fileSection (path : String) (largeWarning : Bool) (content : String)

/-- Whether a block is the oversize placeholder. -/
def Block.isPlaceholder : Block → Bool
  | .tooLargePlaceholder _ _ => true
  | _ => false

/-- Whether a block is the validation error block. -/
def Block.isErrorBlock : Block → Bool
  | .errorBlock _ => true
  | _ => false

/-- The per-file rendering policy of the loop in llm.go lines 129-169:
skip directories, binary files and errored files; placeholder above
`MaxFileSize`; large-file warning above `WarningFileSize`. -/
def renderFile (f : FileInfo) : Option Block :=
  if f.isDir then none
  else if f.isBinary then none
  else if f.error.isSome then none
  else if f.size > maxFileSizeConst then some (.tooLargePlaceholder f.path f.size)
  else some (.fileSection f.path (f.size > warningFileSizeConst) f.content)

/-- `Generator.GenerateLLMsFullText` (llm.go lines 111-172) at block level:
a failed validation yields exactly one error block; otherwise the header
(including the project tree built from the same file list, as
`GenerateOutput` does) is followed by the per-file sections in importance
order. -/
def generateLLMsFullText (totalFiles : Nat) (totalSize : Int)
    (files : List FileInfo) : List Block :=
  match validateFileSize files 0 with
  | some e => [.errorBlock e]
  | none =>
    .header totalFiles totalSize (buildProjectTree files) ::
      (sortFilesByImportance files).filterMap renderFile

/-! ## Binary-vs-text classification (`pkg/utils/files.go` IsTextFile and the
identical private `isTextFile` of the GitHub and GitLab clients) -/

/-- Go `unicode.IsPrint`, faithful on ASCII and Latin-1 (the range every
relevant theorem and witness uses); code points above U+00FF are modelled as
printable, matching Go for letters, digits and symbols. -/
def goIsPrint (c : Char) : Bool :=
  if c.toNat < 0x80 then 0x20 ≤ c.toNat && c.toNat ≤ 0x7e
  else if c.toNat ≤ 0xff then 0xa1 ≤ c.toNat && c.toNat ≠ 0xad
  else true

/-- Go `unicode.IsSpace`, faithful on ASCII and Latin-1. -/
def goIsSpace (c : Char) : Bool :=
  c = '\t' || c = '\n' || c = Char.ofNat 11 || c = Char.ofNat 12 || c = '\r' ||
    c = ' ' || c.toNat = 0x85 || c.toNat = 0xa0

/-- Go `unicode.IsControl`, faithful on ASCII and Latin-1. -/
def goIsControl (c : Char) : Bool :=
  c.toNat < 0x20 || c.toNat = 0x7f || (0x80 ≤ c.toNat && c.toNat ≤ 0x9f)

/-- `utils.IsTextFile` (files.go lines 72-96): empty content is text; a null
byte means binary; otherwise binary when more than 20% of the runes are
neither printable nor space.  Go divides float64 counts and compares with
the literal `0.2`; `5 * count > len(content)` is the exact-arithmetic form
of that comparison (`len(content)` is the byte length). -/
def utilsIsTextFile (content : String) : Bool :=
  if content = "" then true
  else if containsSeq [Char.ofNat 0] content.data then false
  else
    let nonPrintable :=
      (content.data.filter (fun r => !goIsPrint r && !goIsSpace r)).length
    if content.utf8ByteSize > 0 && 5 * nonPrintable > content.utf8ByteSize then false
    else true

/-- The GitHub and GitLab clients' private `isTextFile`: binary iff some
byte is the null byte. -/
def ghIsTextFile (content : String) : Bool :=
  content.data.all (fun b => b ≠ Char.ofNat 0)

/-- The classifier the specification describes, written from the spec's
words for comparison with the implementations above: null byte means binary;
a valid BOM (modelled as a leading U+FEFF) means text; otherwise binary when
the fraction of bytes that are neither printable nor exempted whitespace
(tab/newline/CR) exceeds 30%, or the fraction of other control characters
exceeds 5%. -/
def specIsTextFile (content : String) : Bool :=
  if containsSeq [Char.ofNat 0] content.data then false
  else if content.data.head? = some (Char.ofNat 0xfeff) then true
  else
    let n := content.utf8ByteSize
    let nonPrint := (content.data.filter
      (fun r => !goIsPrint r && r ≠ '\t' && r ≠ '\n' && r ≠ '\r')).length
    let ctrl := (content.data.filter
      (fun r => goIsControl r && r ≠ '\t' && r ≠ '\n' && r ≠ '\r')).length
    !(10 * nonPrint > 3 * n || 20 * ctrl > n)

/-! ## Local filesystem backend (`internal/adapters/local/client.go`) -/

/-- Go `path/filepath.Clean` on Unix, as a pure function: drop empty and
`.` components, resolve `..` against a stack (a leading sequence of `..` is
kept for relative paths and dropped at the root for absolute ones). -/
def cleanPath (p : String) : String :=
  if p = "" then "."
  else
    let rooted := goStartsWith p "/"
    let comps := (goSplitSlash p).filter (fun c => c ≠ "" && c ≠ ".")
    let outRev := comps.foldl
      (fun st c =>
        if c = ".." then
          match st with
          | [] => if rooted then [] else [".."]
          | h :: t => if h = ".." then c :: h :: t else t
        else c :: st) []
    let parts := outRev.reverse
    if rooted then "/" ++ String.intercalate "/" parts
    else if parts.isEmpty then "."
    else String.intercalate "/" parts

/-- Go `path/filepath.IsAbs` on Unix. -/
def goIsAbs (p : String) : Bool :=
  goStartsWith p "/"

/-- Go `path/filepath.Join` for two elements on Unix: empty elements are
skipped and the result is cleaned. -/
def goJoin (a b : String) : String :=
  if a = "" then (if b = "" then "" else cleanPath b)
  else cleanPath (a ++ "/" ++ b)

/-- Go `path/filepath.Abs` on Unix with the working directory made explicit:
an absolute path is cleaned, a relative one is joined to `cwd`. -/
def goAbs (cwd p : String) : String :=
  if goIsAbs p then cleanPath p else goJoin cwd p

/-- The errors of the local backend, by class.  `invalidPath` is the
`"invalid file path"` rejection of `sanitizePath`. -/
inductive PathError where
  | invalidPath (p : String)
  | outsideBase (p : String)
  | notFound (p : String)
  | isDirectory (p : String)
  | binaryFile (p : String)
  | readFailed (p : String)
deriving DecidableEq, Repr

/-- The message the Go code formats for each error (client.go). -/
def pathErrorMessage : PathError → String
  | .invalidPath p => "invalid file path: " ++ p
  | .outsideBase p => "path outside base directory: " ++ p
  | .notFound p => "file not found: " ++ p
  | .isDirectory p => "path is a directory: " ++ p
  | .binaryFile p => "file is binary: " ++ p
  | .readFailed p => "failed to read file: " ++ p

/-- `Client.sanitizePath` (client.go lines 112-142): clean the requested
path, reject absolute paths and paths beginning with `..` before any
filesystem access, then check that the resolved path stays under the base
directory.  `cwd` makes `filepath.Abs`'s working directory explicit. -/
def sanitizePath (cwd base filePath : String) : Except PathError String :=
  let cp := cleanPath filePath
  if goIsAbs cp || goStartsWith cp ".." then .error (.invalidPath filePath)
  else
    let fullPath := goJoin base cp
    let absBase := goAbs cwd base
    let absPath := goAbs cwd fullPath
    if !(goStartsWith absPath (absBase ++ "/")) then .error (.outsideBase filePath)
    else .ok fullPath

/-- One entry of the modelled filesystem.  `isBinary` stands for the result
of `utils.IsBinaryFile` on the file (modelled from the spec: `IsBinaryFile`
reads a bounded prefix of the file and applies the binary heuristic; its
source file is not part of the repository snapshot, so its verdict is an
attribute of the filesystem oracle). `readErr` models an `os.ReadFile`
failure. -/
structure FsEntry where
  isDir : Bool
  isBinary : Bool
  size : Int
  content : String
  readErr : Option String
deriving DecidableEq, Repr

/-- A filesystem oracle: what `os.Stat`/`os.ReadFile` see at each path. -/
def FsOracle : Type := String → Option FsEntry

/-- `Client.GetFileContent` (client.go lines 144-172): sanitize, stat,
reject directories and binary files, read. -/
def getFileContentLocal (fs : FsOracle) (cwd base filePath : String) :
    Except PathError String :=
  match sanitizePath cwd base filePath with
  | .error e => .error e
  | .ok fullPath =>
    match fs fullPath with
    | none => .error (.notFound filePath)
    | some ent =>
      if ent.isDir then .error (.isDirectory filePath)
      else if ent.isBinary then .error (.binaryFile filePath)
      else
        match ent.readErr with
        | some _ => .error (.readFailed filePath)
        | none => .ok ent.content

/-- `Client.GetFileInfo` (client.go lines 174-224): never returns a Go
error; every failure is recorded inside the returned `FileInfo`. -/
def localGetFileInfo (fs : FsOracle) (cwd base filePath : String) : FileInfo :=
  match sanitizePath cwd base filePath with
  | .error e =>
    { FileInfo.zero with
      path := filePath
      name := goBase filePath
      error := some (pathErrorMessage e) }
  | .ok fullPath =>
    match fs fullPath with
    | none =>
      { FileInfo.zero with
        path := filePath
        name := goBase filePath
        error := some ("file not found: " ++ filePath) }
    | some ent =>
      let fi : FileInfo :=
        { path := filePath, name := goBase fullPath, size := ent.size,
          content := "", isText := true, isBinary := false,
          isDir := ent.isDir, error := none }
      if ent.isDir then fi
      else if ent.isBinary then { fi with isBinary := true, isText := false }
      else
        match ent.readErr with
        | some msg => { fi with error := some ("failed to read file: " ++ msg) }
        | none => { fi with content := ent.content }

/-- Two's-complement wrap of a Go `int64` computation. -/
def wrapInt64 (x : Int) : Int :=
  (x + 2 ^ 63) % 2 ^ 64 - 2 ^ 63

/-- `Client.GetMultipleFiles` (client.go lines 227-273).  The goroutines
write `results[index]` and the completion order is arbitrary: `sched` lists
the indices in completion order, and each completed fetch stores its result
at its own index of a pre-sized array.  The two resource-limit rejections
happen before any fetch: the error branches never consult `fs`. -/
def localGetMultipleFiles (cfg : ProcessingConfig) (fs : FsOracle)
    (cwd base : String) (paths : List String) (sched : List Nat) :
    Except String (List FileInfo) :=
  if (paths.length : Int) > cfg.maxFiles then
    .error "too many files to process safely"
  else if wrapInt64 ((paths.length : Int) * cfg.maxMemoryPerFile) > cfg.maxTotalMemory then
    .error "estimated memory usage too high"
  else
    .ok (sched.foldl
      (fun acc i => acc.set i (localGetFileInfo fs cwd base (paths.getD i "")))
      (List.replicate paths.length FileInfo.zero))

/-! ## GitHub client `GetMultipleFiles` (`internal/github/client.go`; the
GitLab client is line-for-line identical here) -/

/-- The GitHub client's `extractFileName`. -/
def ghExtractFileName (p : String) : String :=
  (goSplitSlash p).getLastD ""

/-- `Client.GetFileInfo` of the GitHub client, with the content fetch
abstracted as an oracle. -/
def ghGetFileInfo (fetch : String → Except String String) (p : String) : FileInfo :=
  match fetch p with
  | .error e =>
    { FileInfo.zero with path := p, name := ghExtractFileName p, error := some e }
  | .ok content =>
    { path := p, name := ghExtractFileName p,
      size := (content.utf8ByteSize : Int), content := content,
      isText := ghIsTextFile content, isBinary := !(ghIsTextFile content),
      isDir := false, error := none }

/-- `Client.GetMultipleFiles` of the GitHub client: every fetch sends its
`FileInfo` on a shared channel and the collector appends in completion
order, so the result list is the fetches ordered by `sched`, not by request
index. -/
def ghGetMultipleFiles (fetch : String → Except String String)
    (paths : List String) (sched : List Nat) : List FileInfo :=
  sched.map (fun i => ghGetFileInfo fetch (paths.getD i ""))

/-! ## Supporting lemmas -/

theorem containsSeq_singleton (a : Char) (l : List Char) :
    containsSeq [a] l = true ↔ a ∈ l := by
  induction l with
  | nil => simp [containsSeq, List.isPrefixOf]
  | cons c cs ih =>
    rw [containsSeq]
    simp only [Bool.or_eq_true, ih]
    constructor
    · rintro (h | h)
      · simp [List.isPrefixOf] at h
        exact List.mem_cons.mpr (Or.inl h)
      · exact List.mem_cons.mpr (Or.inr h)
    · intro h
      rcases List.mem_cons.mp h with h | h
      · left
        simp [List.isPrefixOf, h]
      · right
        exact h

theorem utf8ByteSize_pos {s : String} (hs : s ≠ "") : 0 < s.utf8ByteSize := by
  cases s with
  | mk data =>
    cases data with
    | nil => exact absurd rfl hs
    | cons c cs =>
      simp [String.utf8ByteSize, String.utf8ByteSize.go]
      have := Char.utf8Size_pos c
      omega

/-! ## C10: units of `ParseSize` -/

/-- C10: for every size string whose regex match carries the unit `TB`,
`ParseSize` returns an error because the multiplier table only defines
`B`, `KB`, `MB` and `GB`; `"1TB"` errors while `"1GB"` still parses, so
`GB` is the largest unit the parser accepts. -/
theorem parseSize_rejects_tb :
    (∀ (s : String) (m : SizeMatch),
        sizeRegexMatch (goToUpper (goTrimSpace s)) = some m → m.unit = "TB" →
        parseSize s = .error (.unknownUnit "TB")) ∧
    parseSize "1TB" = .error (.unknownUnit "TB") ∧
    parseSize "1GB" = .ok 1073741824 := by
  refine ⟨?_, rfl, rfl⟩
  intro s m h hunit
  simp [parseSize, h, hunit, sizeMultiplier]

/-- Witness for C10 at the concrete input `"1TB"`. -/
theorem parseSize_rejects_tb_witness :
    (sizeRegexMatch (goToUpper (goTrimSpace "1TB")) =
        some { intDigits := ['1'], fracDigits := [], hasFrac := false, unit := "TB" } ∧
      ({ intDigits := ['1'], fracDigits := [], hasFrac := false, unit := "TB" } :
        SizeMatch).unit = "TB") ∧
    parseSize "1TB" = .error (.unknownUnit "TB") :=
  ⟨⟨rfl, rfl⟩, parseSize_rejects_tb.1 "1TB" _ rfl rfl⟩

/-! ## C9: the binary-vs-text heuristic -/

/-- C9 counterexample: `"abcdefghi\x01"` has no null byte, no BOM, and one
control character among ten (10%), so the classifier described by the claim
(30% non-printable threshold, 5% control threshold) calls it binary, while
both implementations in the repository call it text: `utils.IsTextFile`
because its only ratio test is 20% non-printables (10% here), and the
GitHub/GitLab `isTextFile` because it looks at nothing but null bytes. -/
theorem isTextFile_claim_counterexample :
    utilsIsTextFile "abcdefghi\x01" = true ∧
    ghIsTextFile "abcdefghi\x01" = true ∧
    specIsTextFile "abcdefghi\x01" = false :=
  ⟨rfl, rfl, rfl⟩

/-- C9 amended: what the classifiers actually compute.  The GitHub/GitLab
`isTextFile` classifies as text exactly when no null byte occurs; the shared
`utils.IsTextFile` classifies as text exactly when the content is empty, or
has no null byte and at most 20% of its runes are neither printable nor
white space; there is no BOM check and there are no 30%/5% thresholds. -/
theorem isTextFile_characterization :
    (∀ c : String, ghIsTextFile c = true ↔ ∀ ch ∈ c.data, ch ≠ Char.ofNat 0) ∧
    (∀ c : String, utilsIsTextFile c = true ↔
      (c = "" ∨
        ((Char.ofNat 0) ∉ c.data ∧
          5 * (c.data.filter (fun r => !goIsPrint r && !goIsSpace r)).length ≤
            c.utf8ByteSize))) := by
  constructor
  · intro c
    simp [ghIsTextFile]
  · intro c
    unfold utilsIsTextFile
    by_cases hempty : c = ""
    · simp [hempty]
    · rw [if_neg hempty]
      by_cases hnul : containsSeq [Char.ofNat 0] c.data = true
      · have hmem := (containsSeq_singleton _ _).mp hnul
        simp [hnul, hempty, hmem]
      · have hmem : (Char.ofNat 0) ∉ c.data := by
          intro hm
          exact hnul ((containsSeq_singleton _ _).mpr hm)
        rw [if_neg (by simpa using hnul)]
        have hpos := utf8ByteSize_pos hempty
        by_cases hratio :
            5 * (c.data.filter (fun r => !goIsPrint r && !goIsSpace r)).length ≤
              c.utf8ByteSize
        · rw [if_neg (by simp; omega)]
          simp [hempty, hmem, hratio]
        · rw [if_pos (by simp; omega)]
          simp [hempty, hmem, hratio]

/-! ## C2: directory entries and the filter -/

theorem matchChunk_literal_self :
    ∀ (l s : List Char), (∀ c ∈ l, c ≠ '[' ∧ c ≠ '?' ∧ c ≠ '\\') →
      matchChunk l (l ++ s) false = .ok (s, true) := by
  intro l
  induction l with
  | nil =>
    intro s _
    rw [matchChunk.eq_def]
    rfl
  | cons c cr ih =>
    intro s hc
    obtain ⟨h1, h2, h3⟩ := hc c (List.mem_cons_self c cr)
    rw [matchChunk.eq_def]
    simp only [List.cons_append, List.isEmpty_cons, Bool.or_false, if_neg h1,
      if_neg h2, if_neg h3, List.headD_cons, List.tail_cons]
    rw [if_neg (by simp)]
    have hde : decide (c ≠ c) = false := by simp
    rw [hde]
    exact ih s (fun d hd => hc d (List.mem_cons_of_mem c hd))

theorem goMatch_logs_self : goMatch "logs" "logs" = .ok true := by
  have hd : ("logs" : String).data = ['l', 'o', 'g', 's'] := rfl
  have hmc := matchChunk_literal_self ['l', 'o', 'g', 's'] [] (by decide)
  rw [List.append_nil] at hmc
  rw [goMatch, hd, goMatchLoop.eq_def]
  simp [scanChunk, scanChunkEnd, hmc]
  rw [goMatchLoop.eq_def]
  rfl

/-- C2 counterexample: with the ignore pattern `"logs"`, the single input
entry is a directory (`type = "tree"`) and is dropped by both filters, so
the filtered list does not contain the directory entries of the input: the
ignore check runs before the directory bypass. -/
theorem filter_directory_counterexample :
    filterFilesFF ["logs"] []
      [{ id := "logs", name := "logs", type := "tree", path := "logs", mode := "040000" }] = [] ∧
    rpFilterFiles
      { ignore := ["logs"], includeOnly := [], maxFileSize := "",
        skipBinary := false, maxConcurrency := 0, maxMemoryPerFile := 0,
        maxTotalMemory := 0, maxFiles := 0 }
      [{ id := "logs", name := "logs", type := "tree", path := "logs", mode := "040000" }] = [] ∧
    ([{ id := "logs", name := "logs", type := "tree", path := "logs", mode := "040000" }] :
      List RepositoryTree).filter (fun e => e.type = "tree") ≠ [] := by
  have hb : goBase "logs" = "logs" := rfl
  have hok : goMatchOk "logs" "logs" = true := by
    rw [goMatchOk, goMatch_logs_self]
  have hig : shouldIgnorePM ["logs"] "logs" = true := by
    simp [shouldIgnorePM, matchesPattern, hb, hok]
  have hig2 : rpShouldIgnore
      { ignore := ["logs"], includeOnly := [], maxFileSize := "",
        skipBinary := false, maxConcurrency := 0, maxMemoryPerFile := 0,
        maxTotalMemory := 0, maxFiles := 0 } "logs" = true := by
    simp [rpShouldIgnore, hb, hok]
  refine ⟨?_, ?_, by simp⟩
  · rw [filterFilesFF, hig]
    rfl
  · rw [rpFilterFiles, hig2]
    rfl

/-- C2 amended: directory entries bypass only the include check; the ignore
check applies to them first.  For every combination of ignore and include
patterns, both filters return exactly the input entries that are not ignored
and are either directories or pass the include check. -/
theorem filterFiles_characterization :
    (∀ (ign incl : List String) (tree : List RepositoryTree),
      filterFilesFF ign incl tree =
        tree.filter (fun e =>
          !shouldIgnorePM ign e.path && (e.type = "tree" || shouldIncludePM incl e.path))) ∧
    (∀ (cfg : ProcessingConfig) (tree : List RepositoryTree),
      rpFilterFiles cfg tree =
        tree.filter (fun e =>
          !rpShouldIgnore cfg e.path && (e.type = "tree" || rpShouldInclude cfg e.path))) := by
  constructor
  · intro ign incl tree
    induction tree with
    | nil => rfl
    | cons e rest ih =>
      rw [filterFilesFF]
      by_cases h1 : shouldIgnorePM ign e.path
      · simp [h1, ih]
      · by_cases h2 : e.type = "tree"
        · simp [h1, h2, ih]
        · by_cases h3 : shouldIncludePM incl e.path
          · simp [h1, h2, h3, ih]
          · simp [h1, h2, h3, ih]
  · intro cfg tree
    induction tree with
    | nil => rfl
    | cons e rest ih =>
      rw [rpFilterFiles]
      by_cases h1 : rpShouldIgnore cfg e.path
      · simp [h1, ih]
      · by_cases h2 : e.type = "tree"
        · simp [h1, h2, ih]
        · by_cases h3 : rpShouldInclude cfg e.path
          · simp [h1, h2, h3, ih]
          · have hne : cfg.includeOnly ≠ [] := by
              intro hnil
              rw [rpShouldInclude, hnil] at h3
              simp at h3
            simp [h1, h2, h3, ih, List.length_pos.mpr hne]

/-! ## C3 and C4: post-fetch policy and result stamping -/

theorem pfFold_spec (cfg : ProcessingConfig) :
    ∀ (files : List FileInfo) (acc : List FileInfo × Int × List String),
      files.foldl (pfStep cfg) acc =
        (acc.1 ++ files.filter (fun f => keepFile cfg f),
         acc.2.1 + ((files.filter (fun f => keepFile cfg f)).map FileInfo.size).sum,
         acc.2.2 ++ files.filterMap (errContribution cfg)) := by
  intro files
  induction files with
  | nil => simp
  | cons f rest ih =>
    intro acc
    rw [List.foldl_cons, ih]
    by_cases h1 : dropBySize cfg f
    · have hk : keepFile cfg f = false := by simp [keepFile, h1]
      have he : errContribution cfg f = none := by simp [errContribution, h1]
      simp [pfStep, h1, hk, he]
    · by_cases h2 : dropBinary cfg f
      · have hk : keepFile cfg f = false := by simp [keepFile, h1, h2]
        have he : errContribution cfg f = none := by simp [errContribution, h1, h2]
        simp [pfStep, h1, h2, hk, he]
      · cases herr : f.error with
        | some e =>
          have hk : keepFile cfg f = false := by simp [keepFile, h1, h2, herr]
          have he : errContribution cfg f = some e := by
            simp [errContribution, h1, h2, herr]
          simp [pfStep, h1, h2, herr, hk, he]
        | none =>
          have hk : keepFile cfg f = true := by simp [keepFile, h1, h2, herr]
          have he : errContribution cfg f = none := by
            simp [errContribution, h1, h2, herr]
          simp [pfStep, h1, h2, herr, hk, he]
          omega

/-- C4: the post-fetch policy of `ProcessRepository`, in order.  The kept
file list is exactly the fetched files that survive the oversize drop, the
binary drop and the error check (so an oversize or binary file is absent
from the file list); the error list is exactly the error of every
non-dropped error-carrying file in order (so an oversize file contributes no
error even if it also carries one, and an error-carrying file contributes
its error exactly once); and `ProcessRepository` returns a result — never an
error — whenever the provider call itself succeeds, whatever per-file
errors the fetched `FileInfo`s carry. -/
theorem processRepository_postfetch_policy :
    (∀ (cfg : ProcessingConfig) (files : List FileInfo) (dirs : List RepositoryTree),
      (processFetched cfg files dirs).files =
          files.filter (fun f => keepFile cfg f) ++ dirs.map dirFileInfo ∧
      (processFetched cfg files dirs).errors = files.filterMap (errContribution cfg) ∧
      (∀ e : String, (processFetched cfg files dirs).errors.count e =
          files.countP (fun f => errContribution cfg f == some e)) ∧
      (∀ f ∈ files, dropBySize cfg f = true →
          f ∉ (processFetched cfg files dirs).files.filter (fun g => !g.isDir) ∧
          errContribution cfg f = none)) ∧
    (∀ (cfg : ProcessingConfig) (tree : List RepositoryTree)
        (fetch : List String → Except String (List FileInfo)),
      (∀ ps, ∃ l, fetch ps = .ok l) →
      ∃ r, processRepository cfg tree fetch = .ok r) := by
  constructor
  · intro cfg files dirs
    refine ⟨?_, ?_, ?_, ?_⟩
    · simp [processFetched, pfFold_spec]
    · simp [processFetched, pfFold_spec]
    · intro e
      simp only [processFetched, pfFold_spec]
      simp [List.count_filterMap]
    · intro f hf hdrop
      refine ⟨?_, by simp [errContribution, hdrop]⟩
      simp only [processFetched, pfFold_spec]
      intro hmem
      rw [List.mem_filter] at hmem
      obtain ⟨hmem, hnd⟩ := hmem
      rw [List.nil_append, List.mem_append] at hmem
      rcases hmem with hmem | hmem
      · rcases List.mem_filter.mp hmem with ⟨_, hkeep⟩
        rw [keepFile, hdrop] at hkeep
        simp at hkeep
      · rcases List.mem_map.mp hmem with ⟨d, _, hd⟩
        rw [← hd] at hnd
        simp [dirFileInfo] at hnd
  · intro cfg tree fetch hok
    rw [processRepository]
    obtain ⟨l, hl⟩ := hok (((rpFilterFiles cfg tree).filter
      (fun e => ¬(e.type = "tree"))).map (fun e => e.path))
    rw [hl]
    exact ⟨_, rfl⟩

/-- Witness for C4: a concrete batch with an oversize file (dropped
silently), a binary file under `skip_binary` (dropped silently) and an
errored file (recorded once), where `ProcessRepository` still succeeds. -/
theorem processRepository_postfetch_policy_witness :
    (processFetched
        { ignore := [], includeOnly := [], maxFileSize := "1KB",
          skipBinary := true, maxConcurrency := 0, maxMemoryPerFile := 0,
          maxTotalMemory := 0, maxFiles := 0 }
        [{ FileInfo.zero with path := "big.bin", size := 2048 },
         { FileInfo.zero with path := "img.png", size := 10, isBinary := true },
         { FileInfo.zero with path := "gone.txt", error := some "boom" },
         { FileInfo.zero with path := "ok.txt", size := 5 }]
        []).files =
      [{ FileInfo.zero with path := "ok.txt", size := 5 }] ∧
    (processFetched
        { ignore := [], includeOnly := [], maxFileSize := "1KB",
          skipBinary := true, maxConcurrency := 0, maxMemoryPerFile := 0,
          maxTotalMemory := 0, maxFiles := 0 }
        [{ FileInfo.zero with path := "big.bin", size := 2048 },
         { FileInfo.zero with path := "img.png", size := 10, isBinary := true },
         { FileInfo.zero with path := "gone.txt", error := some "boom" },
         { FileInfo.zero with path := "ok.txt", size := 5 }]
        []).errors = ["boom"] ∧
    (∀ ps : List String,
      ∃ l, (fun _ : List String => (Except.ok [] : Except String (List FileInfo))) ps = .ok l) ∧
    (∃ r, processRepository
        { ignore := [], includeOnly := [], maxFileSize := "1KB",
          skipBinary := true, maxConcurrency := 0, maxMemoryPerFile := 0,
          maxTotalMemory := 0, maxFiles := 0 }
        [] (fun _ => .ok []) = .ok r) := by
  refine ⟨by decide, by decide, fun ps => ⟨[], rfl⟩, ?_⟩
  exact processRepository_postfetch_policy.2 _ [] _ (fun ps => ⟨[], rfl⟩)

/-- C3 counterexample: one surviving file plus one re-injected directory
entry give `TotalFiles = 2`, although only 1 non-directory file survives:
`TotalFiles` is stamped as `len(processedFiles)` after the directory
entries are appended, so directories do contribute to the count. -/
theorem totalFiles_counts_directories_counterexample :
    (processFetched
        { ignore := [], includeOnly := [], maxFileSize := "",
          skipBinary := false, maxConcurrency := 0, maxMemoryPerFile := 0,
          maxTotalMemory := 0, maxFiles := 0 }
        [{ FileInfo.zero with path := "a.txt", size := 5 }]
        [{ id := "src", name := "src", type := "tree", path := "src", mode := "040000" }]).totalFiles = 2 ∧
    ((processFetched
        { ignore := [], includeOnly := [], maxFileSize := "",
          skipBinary := false, maxConcurrency := 0, maxMemoryPerFile := 0,
          maxTotalMemory := 0, maxFiles := 0 }
        [{ FileInfo.zero with path := "a.txt", size := 5 }]
        [{ id := "src", name := "src", type := "tree", path := "src", mode := "040000" }]).files.filter
      (fun f => !f.isDir)).length = 1 ∧
    (2 : Nat) ≠ 1 := by
  refine ⟨by decide, by decide, by decide⟩

/-- C3 amended: `TotalFiles` counts the surviving files PLUS the re-injected
zero-size directory entries (it is the length of the assembled `Files`
list), while `TotalSize` sums the surviving files only, so directories never
contribute to the size but always contribute to the count.  The spec's
three-file example still holds because it has no directory entries: with
files 1 and 3 surviving and file 2 carrying an error, the result has 2
files, 1 error, `TotalFiles = 2` and `TotalSize` the sum of the two
survivors' sizes. -/
theorem processResult_stamping :
    ∀ (cfg : ProcessingConfig) (files : List FileInfo) (dirs : List RepositoryTree),
      (processFetched cfg files dirs).totalFiles =
          (files.filter (fun f => keepFile cfg f)).length + dirs.length ∧
      (processFetched cfg files dirs).totalSize =
          ((files.filter (fun f => keepFile cfg f)).map FileInfo.size).sum ∧
      (∀ (f1 f2 f3 : FileInfo) (e : String),
        keepFile cfg f1 = true → errContribution cfg f2 = some e →
        keepFile cfg f3 = true →
        (processFetched cfg [f1, f2, f3] []).files = [f1, f3] ∧
        (processFetched cfg [f1, f2, f3] []).errors = [e] ∧
        (processFetched cfg [f1, f2, f3] []).totalFiles = 2 ∧
        (processFetched cfg [f1, f2, f3] []).totalSize = f1.size + f3.size) := by
  intro cfg files dirs
  refine ⟨?_, ?_, ?_⟩
  · simp [processFetched, pfFold_spec]
  · simp [processFetched, pfFold_spec]
  · intro f1 f2 f3 e h1 h2 h3
    have hk2 : keepFile cfg f2 = false := by
      rw [errContribution] at h2
      rw [keepFile]
      split at h2
      · simp at h2
      · split at h2
        · simp at h2
        · simp_all
    have he1 : errContribution cfg f1 = none := by
      rw [keepFile] at h1
      rw [errContribution]
      simp only [Bool.and_eq_true, Bool.not_eq_true'] at h1
      rw [if_neg (by simp [h1.1.1]), if_neg (by simp [h1.1.2])]
      exact Option.isNone_iff_eq_none.mp h1.2
    have he3 : errContribution cfg f3 = none := by
      rw [keepFile] at h3
      rw [errContribution]
      simp only [Bool.and_eq_true, Bool.not_eq_true'] at h3
      rw [if_neg (by simp [h3.1.1]), if_neg (by simp [h3.1.2])]
      exact Option.isNone_iff_eq_none.mp h3.2
    have hfold := pfFold_spec cfg [f1, f2, f3] ([], 0, [])
    refine ⟨?_, ?_, ?_, ?_⟩ <;>
      · simp only [processFetched, hfold]
        simp [h1, hk2, h3, he1, he3, h2]

/-- Witness for C3's amended theorem at a concrete configuration, file
triple and directory list. -/
theorem processResult_stamping_witness :
    (keepFile
        { ignore := [], includeOnly := [], maxFileSize := "",
          skipBinary := false, maxConcurrency := 0, maxMemoryPerFile := 0,
          maxTotalMemory := 0, maxFiles := 0 }
        { FileInfo.zero with path := "a.txt", size := 5 } = true ∧
      errContribution
        { ignore := [], includeOnly := [], maxFileSize := "",
          skipBinary := false, maxConcurrency := 0, maxMemoryPerFile := 0,
          maxTotalMemory := 0, maxFiles := 0 }
        { FileInfo.zero with path := "bad.txt", error := some "boom" } = some "boom" ∧
      keepFile
        { ignore := [], includeOnly := [], maxFileSize := "",
          skipBinary := false, maxConcurrency := 0, maxMemoryPerFile := 0,
          maxTotalMemory := 0, maxFiles := 0 }
        { FileInfo.zero with path := "b.txt", size := 7 } = true) ∧
    ((processFetched
        { ignore := [], includeOnly := [], maxFileSize := "",
          skipBinary := false, maxConcurrency := 0, maxMemoryPerFile := 0,
          maxTotalMemory := 0, maxFiles := 0 }
        [{ FileInfo.zero with path := "a.txt", size := 5 },
         { FileInfo.zero with path := "bad.txt", error := some "boom" },
         { FileInfo.zero with path := "b.txt", size := 7 }] []).totalFiles = 2 ∧
      (processFetched
        { ignore := [], includeOnly := [], maxFileSize := "",
          skipBinary := false, maxConcurrency := 0, maxMemoryPerFile := 0,
          maxTotalMemory := 0, maxFiles := 0 }
        [{ FileInfo.zero with path := "a.txt", size := 5 },
         { FileInfo.zero with path := "bad.txt", error := some "boom" },
         { FileInfo.zero with path := "b.txt", size := 7 }] []).totalSize = 5 + 7) := by
  refine ⟨⟨by decide, by decide, by decide⟩, ?_, ?_⟩
  · exact ((processResult_stamping
      { ignore := [], includeOnly := [], maxFileSize := "",
        skipBinary := false, maxConcurrency := 0, maxMemoryPerFile := 0,
        maxTotalMemory := 0, maxFiles := 0 } [] []).2.2
      { FileInfo.zero with path := "a.txt", size := 5 }
      { FileInfo.zero with path := "bad.txt", error := some "boom" }
      { FileInfo.zero with path := "b.txt", size := 7 } "boom"
      (by decide) (by decide) (by decide)).2.2.1
  · have h := ((processResult_stamping
      { ignore := [], includeOnly := [], maxFileSize := "",
        skipBinary := false, maxConcurrency := 0, maxMemoryPerFile := 0,
        maxTotalMemory := 0, maxFiles := 0 } [] []).2.2
      { FileInfo.zero with path := "a.txt", size := 5 }
      { FileInfo.zero with path := "bad.txt", error := some "boom" }
      { FileInfo.zero with path := "b.txt", size := 7 } "boom"
      (by decide) (by decide) (by decide)).2.2.2
    simpa using h

/-! ## C1: the size guards of `GenerateLLMsFullText` -/

theorem validateFileSize_none_bound :
    ∀ (files : List FileInfo) (total : Int), validateFileSize files total = none →
      ∀ f ∈ files, f.isDir = false → f.size ≤ maxFileSizeConst := by
  intro files
  induction files with
  | nil => simp
  | cons g rest ih =>
    intro total hv f hf hdir
    rw [validateFileSize] at hv
    rcases List.mem_cons.mp hf with hfg | hfr
    · subst hfg
      rw [if_neg (by simp [hdir])] at hv
      by_cases hs : f.size > maxFileSizeConst
      · rw [if_pos hs] at hv
        simp at hv
      · omega
    · by_cases hd : g.isDir
      · rw [if_pos hd] at hv
        exact ih total hv f hfr hdir
      · rw [if_neg hd] at hv
        by_cases hs : g.size > maxFileSizeConst
        · rw [if_pos hs] at hv
          simp at hv
        · rw [if_neg hs] at hv
          by_cases ht : total + g.size > maxTotalSizeConst
          · rw [if_pos ht] at hv
            simp at hv
          · rw [if_neg ht] at hv
            exact ih _ hv f hfr hdir

theorem validateFileSize_some_of_oversize :
    ∀ (files : List FileInfo) (total : Int),
      (∃ f ∈ files, f.isDir = false ∧ f.size > maxFileSizeConst) →
      ∃ e, validateFileSize files total = some e := by
  intro files
  induction files with
  | nil =>
    intro total h
    simp at h
  | cons g rest ih =>
    intro total h
    rw [validateFileSize]
    by_cases hd : g.isDir
    · rw [if_pos hd]
      apply ih
      obtain ⟨f, hf, hfd, hfs⟩ := h
      rcases List.mem_cons.mp hf with hfg | hfr
      · subst hfg
        rw [hd] at hfd
        simp at hfd
      · exact ⟨f, hfr, hfd, hfs⟩
    · rw [if_neg hd]
      by_cases hs : g.size > maxFileSizeConst
      · rw [if_pos hs]
        exact ⟨_, rfl⟩
      · rw [if_neg hs]
        by_cases ht : total + g.size > maxTotalSizeConst
        · rw [if_pos ht]
          exact ⟨_, rfl⟩
        · rw [if_neg ht]
          apply ih
          obtain ⟨f, hf, hfd, hfs⟩ := h
          rcases List.mem_cons.mp hf with hfg | hfr
          · subst hfg
            omega
          · exact ⟨f, hfr, hfd, hfs⟩

/-- C1 counterexample: a single 6 MB file.  `validateFileSize` rejects it,
so `GenerateLLMsFullText` emits exactly one error block and no
`[File too large to include]` placeholder appears, contrary to the claim
that an over-5 MB file is included as a placeholder note. -/
theorem generateLLMsFullText_counterexample :
    generateLLMsFullText 1 (6 * 1024 * 1024)
        [{ FileInfo.zero with path := "big.txt", size := 6 * 1024 * 1024, isText := true }] =
      [.errorBlock (.fileTooLarge "big.txt" (6 * 1024 * 1024))] ∧
    ∀ b ∈ generateLLMsFullText 1 (6 * 1024 * 1024)
        [{ FileInfo.zero with path := "big.txt", size := 6 * 1024 * 1024, isText := true }],
      b.isPlaceholder = false := by
  have h : generateLLMsFullText 1 (6 * 1024 * 1024)
      [{ FileInfo.zero with path := "big.txt", size := 6 * 1024 * 1024, isText := true }] =
      [.errorBlock (.fileTooLarge "big.txt" (6 * 1024 * 1024))] := by
    rw [generateLLMsFullText]
    have hv : validateFileSize
        [{ FileInfo.zero with path := "big.txt", size := 6 * 1024 * 1024, isText := true }] 0 =
        some (.fileTooLarge "big.txt" (6 * 1024 * 1024)) := by decide
    rw [hv]
  refine ⟨h, ?_⟩
  rw [h]
  intro b hb
  simp at hb
  subst hb
  rfl

/-- C1 amended: both size guards abort generation.  Whenever
`validateFileSize` fails — which it does for any single non-directory file
over 5 MB, and when the running total passes 100 MB — the rendered document
is exactly its one error block; and the `[File too large to include]`
placeholder branch of the rendering loop is unreachable: no output of
`GenerateLLMsFullText` ever contains a placeholder block. -/
theorem generateLLMsFullText_size_guards :
    ∀ (tf : Nat) (ts : Int) (files : List FileInfo),
      (∀ e, validateFileSize files 0 = some e →
        generateLLMsFullText tf ts files = [.errorBlock e]) ∧
      ((∃ f ∈ files, f.isDir = false ∧ f.size > maxFileSizeConst) →
        ∃ e, generateLLMsFullText tf ts files = [.errorBlock e]) ∧
      (∀ b ∈ generateLLMsFullText tf ts files, b.isPlaceholder = false) := by
  intro tf ts files
  refine ⟨?_, ?_, ?_⟩
  · intro e he
    rw [generateLLMsFullText, he]
  · intro hex
    obtain ⟨e, he⟩ := validateFileSize_some_of_oversize files 0 hex
    exact ⟨e, by rw [generateLLMsFullText, he]⟩
  · intro b hb
    rw [generateLLMsFullText] at hb
    cases hv : validateFileSize files 0 with
    | some e =>
      rw [hv] at hb
      simp at hb
      subst hb
      rfl
    | none =>
      rw [hv] at hb
      rcases List.mem_cons.mp hb with hbh | hbt
      · subst hbh
        rfl
      · obtain ⟨f, hfmem, hfr⟩ := List.mem_filterMap.mp hbt
        have hfiles : f ∈ files :=
          (List.perm_insertionSort fileImportanceLe files).mem_iff.mp hfmem
        rw [renderFile] at hfr
        by_cases hd : f.isDir
        · rw [if_pos hd] at hfr
          simp at hfr
        · rw [if_neg hd] at hfr
          have hbound := validateFileSize_none_bound files 0 hv f hfiles
            (by simpa using hd)
          by_cases hbin : f.isBinary
          · rw [if_pos hbin] at hfr
            simp at hfr
          · rw [if_neg hbin] at hfr
            by_cases herr : f.error.isSome
            · rw [if_pos herr] at hfr
              simp at hfr
            · rw [if_neg herr] at hfr
              rw [if_neg (by omega)] at hfr
              simp only [Option.some.injEq] at hfr
              rw [← hfr]
              rfl

/-- Witness for C1's amended theorem at the 6 MB single-file input. -/
theorem generateLLMsFullText_size_guards_witness :
    (validateFileSize
        [{ FileInfo.zero with path := "big.txt", size := 6 * 1024 * 1024, isText := true }] 0 =
      some (.fileTooLarge "big.txt" (6 * 1024 * 1024))) ∧
    generateLLMsFullText 1 (6 * 1024 * 1024)
        [{ FileInfo.zero with path := "big.txt", size := 6 * 1024 * 1024, isText := true }] =
      [.errorBlock (.fileTooLarge "big.txt" (6 * 1024 * 1024))] := by
  refine ⟨by decide, ?_⟩
  exact (generateLLMsFullText_size_guards 1 (6 * 1024 * 1024)
    [{ FileInfo.zero with path := "big.txt", size := 6 * 1024 * 1024, isText := true }]).1
    _ (by decide)

/-! ## C6: path traversal rejection in the local backend -/

/-- C6: every requested path that is absolute or begins with `..` after
cleaning is rejected by `sanitizePath` with the `invalidPath` error before
any filesystem access — `GetFileContent` returns the same error for every
filesystem oracle, so nothing is ever stat'ed or read, and nothing is
clamped into the base directory.  The three attack strings of the claim are
rejected, and `"test.txt"` and `"./test.txt"` are accepted identically:
both sanitize to the same full path and yield identical content outcomes
under every filesystem (the Go error values echo the caller's spelling of
the path, so identical behaviour is stated on the success values). -/
theorem sanitizePath_rejects_traversal :
    (∀ (cwd base p : String) (fs : FsOracle),
      (goIsAbs (cleanPath p) = true ∨ goStartsWith (cleanPath p) ".." = true) →
      sanitizePath cwd base p = .error (.invalidPath p) ∧
      getFileContentLocal fs cwd base p = .error (.invalidPath p)) ∧
    (sanitizePath "/cwd" "/base" "../../etc/passwd" =
        .error (.invalidPath "../../etc/passwd") ∧
      sanitizePath "/cwd" "/base" "/etc/passwd" = .error (.invalidPath "/etc/passwd") ∧
      sanitizePath "/cwd" "/base" "..\\..\\windows\\system32" =
        .error (.invalidPath "..\\..\\windows\\system32")) ∧
    (sanitizePath "/cwd" "/base" "test.txt" = .ok "/base/test.txt" ∧
      sanitizePath "/cwd" "/base" "./test.txt" = .ok "/base/test.txt" ∧
      ∀ fs : FsOracle,
        (getFileContentLocal fs "/cwd" "/base" "test.txt").toOption =
          (getFileContentLocal fs "/cwd" "/base" "./test.txt").toOption) := by
  have hrej : ∀ (cwd base p : String),
      (goIsAbs (cleanPath p) = true ∨ goStartsWith (cleanPath p) ".." = true) →
      sanitizePath cwd base p = .error (.invalidPath p) := by
    intro cwd base p h
    rw [sanitizePath]
    rw [if_pos (by rcases h with h | h <;> simp [h])]
  have h1 : sanitizePath "/cwd" "/base" "test.txt" = .ok "/base/test.txt" := rfl
  have h2 : sanitizePath "/cwd" "/base" "./test.txt" = .ok "/base/test.txt" := rfl
  refine ⟨?_, ⟨rfl, rfl, rfl⟩, h1, h2, ?_⟩
  · intro cwd base p fs h
    refine ⟨hrej cwd base p h, ?_⟩
    rw [getFileContentLocal, hrej cwd base p h]
  · intro fs
    rw [getFileContentLocal, getFileContentLocal, h1, h2]
    cases hfs : fs "/base/test.txt" with
    | none => simp [hfs, Except.toOption]
    | some ent =>
      by_cases hd : ent.isDir
      · simp [hfs, hd, Except.toOption]
      · by_cases hbin : ent.isBinary
        · simp [hfs, hd, hbin, Except.toOption]
        · cases hre : ent.readErr with
          | some m => simp [hfs, hd, hbin, hre, Except.toOption]
          | none => simp [hfs, hd, hbin, hre]

/-- Witness for C6 at `"../../etc/passwd"` with an empty filesystem. -/
theorem sanitizePath_rejects_traversal_witness :
    (goIsAbs (cleanPath "../../etc/passwd") = true ∨
      goStartsWith (cleanPath "../../etc/passwd") ".." = true) ∧
    (sanitizePath "/cwd" "/base" "../../etc/passwd" =
        .error (.invalidPath "../../etc/passwd") ∧
      getFileContentLocal (fun _ => none) "/cwd" "/base" "../../etc/passwd" =
        .error (.invalidPath "../../etc/passwd")) := by
  refine ⟨by decide, ?_⟩
  exact sanitizePath_rejects_traversal.1 "/cwd" "/base" "../../etc/passwd"
    (fun _ => none) (by decide)

/-! ## C7 and C8: `GetMultipleFiles` -/

theorem foldl_set_get? (v : Nat → FileInfo) :
    ∀ (sched : List Nat) (init : List FileInfo) (j : Nat),
      (sched.foldl (fun acc i => acc.set i (v i)) init).get? j =
        if j ∈ sched ∧ j < init.length then some (v j) else init.get? j := by
  intro sched
  induction sched with
  | nil => simp
  | cons i rest ih =>
    intro init j
    rw [List.foldl_cons, ih, List.length_set]
    by_cases hj : j < init.length
    · by_cases hr : j ∈ rest
      · rw [if_pos ⟨hr, hj⟩, if_pos ⟨List.mem_cons_of_mem i hr, hj⟩]
      · rw [if_neg (by simp [hr]), List.get?_set]
        by_cases hij : i = j
        · subst hij
          rw [if_pos rfl, if_pos ⟨List.mem_cons_self i rest, hj⟩]
          cases hgi : init.get? i with
          | none =>
            rw [List.get?_eq_none] at hgi
            omega
          | some a => simp
        · rw [if_neg hij,
            if_neg (by
              rintro ⟨hmem, _⟩
              rcases List.mem_cons.mp hmem with h | h
              · exact hij h.symm
              · exact hr h)]
    · rw [if_neg (by simp [hj]), if_neg (by simp [hj])]
      rw [List.get?_eq_none.mpr (by rw [List.length_set]; omega),
        List.get?_eq_none.mpr (by omega)]

theorem foldl_set_eq_map (v : Nat → FileInfo) (n : Nat) (sched : List Nat)
    (hp : sched.Perm (List.range n)) :
    sched.foldl (fun acc i => acc.set i (v i)) (List.replicate n FileInfo.zero) =
      (List.range n).map v := by
  apply List.ext_get?
  intro j
  rw [foldl_set_get?, List.length_replicate]
  by_cases hj : j < n
  · rw [if_pos ⟨hp.mem_iff.mpr (List.mem_range.mpr hj), hj⟩]
    rw [List.get?_map, List.get?_range hj]
    rfl
  · rw [if_neg (by simp [hj])]
    have e1 : (List.replicate n FileInfo.zero).get? j = none :=
      List.get?_eq_none.mpr (by simp only [List.length_replicate]; omega)
    have e2 : ((List.range n).map v).get? j = none :=
      List.get?_eq_none.mpr (by simp only [List.length_map, List.length_range]; omega)
    rw [e1, e2]

theorem range_map_getD (g : String → FileInfo) (paths : List String) :
    (List.range paths.length).map (fun i => g (paths.getD i "")) = paths.map g := by
  apply List.ext_get?
  intro j
  rw [List.get?_map, List.get?_map]
  by_cases hj : j < paths.length
  · rw [List.get?_range hj]
    cases hg : paths.get? j with
    | none =>
      rw [List.get?_eq_none] at hg
      omega
    | some s =>
      have hg2 : paths[j]? = some s := by
        rw [← List.get?_eq_getElem?]
        exact hg
      simp [List.getD_eq_getElem?_getD, hg2]
  · have e1 : (List.range paths.length).get? j = none :=
      List.get?_eq_none.mpr (by simp only [List.length_range]; omega)
    have e2 : paths.get? j = none := List.get?_eq_none.mpr (by omega)
    rw [e1, e2]
    rfl

/-- C7 counterexample: the GitHub `GetMultipleFiles` collects results in
completion order.  With requested paths `["a", "b"]` and completion order
`[1, 0]` (a permutation of the indices), the element at position 0 of the
returned array is the outcome for path `"b"`, not for `paths[0] = "a"`. -/
theorem ghGetMultipleFiles_misaligned :
    ([1, 0].Perm (List.range 2)) ∧
    (ghGetMultipleFiles (fun p => .ok p) ["a", "b"] [1, 0]).map FileInfo.path =
      ["b", "a"] ∧
    (["b", "a"] : List String) ≠ ["a", "b"] :=
  ⟨by decide, rfl, by decide⟩

/-- C7 amended: the local backend's `GetMultipleFiles` is positionally
aligned with the input paths for every completion order — each goroutine
writes `results[index]`, so for any permutation `sched` of the indices the
result is exactly `paths` mapped through the per-path fetch.  The
GitHub/GitLab `GetMultipleFiles` instead returns the per-path outcomes as a
permutation (the completion order), so callers get the right multiset but
no positional alignment. -/
theorem getMultipleFiles_ordering :
    (∀ (cfg : ProcessingConfig) (fs : FsOracle) (cwd base : String)
        (paths : List String) (sched : List Nat),
      sched.Perm (List.range paths.length) →
      ¬((paths.length : Int) > cfg.maxFiles) →
      ¬(wrapInt64 ((paths.length : Int) * cfg.maxMemoryPerFile) > cfg.maxTotalMemory) →
      localGetMultipleFiles cfg fs cwd base paths sched =
        .ok (paths.map (localGetFileInfo fs cwd base))) ∧
    (∀ (fetch : String → Except String String) (paths : List String) (sched : List Nat),
      sched.Perm (List.range paths.length) →
      (ghGetMultipleFiles fetch paths sched).Perm (paths.map (ghGetFileInfo fetch))) := by
  constructor
  · intro cfg fs cwd base paths sched hperm h1 h2
    rw [localGetMultipleFiles, if_neg h1, if_neg h2]
    rw [foldl_set_eq_map (fun i => localGetFileInfo fs cwd base (paths.getD i ""))
      paths.length sched hperm]
    rw [range_map_getD]
  · intro fetch paths sched hperm
    rw [ghGetMultipleFiles]
    have h1 := hperm.map (fun i => ghGetFileInfo fetch (paths.getD i ""))
    rwa [range_map_getD] at h1

/-- Witness for C7's amended theorem: two paths fetched in completion order
`[1, 0]` on both backends. -/
theorem getMultipleFiles_ordering_witness :
    (([1, 0] : List Nat).Perm (List.range 2) ∧
      ¬((2 : Int) > (10 : Int)) ∧
      ¬(wrapInt64 ((2 : Int) * 1) > (100 : Int))) ∧
    localGetMultipleFiles
        { ignore := [], includeOnly := [], maxFileSize := "", skipBinary := false,
          maxConcurrency := 5, maxMemoryPerFile := 1, maxTotalMemory := 100,
          maxFiles := 10 }
        (fun _ => none) "/cwd" "/base" ["a", "b"] [1, 0] =
      .ok (["a", "b"].map (localGetFileInfo (fun _ => none) "/cwd" "/base")) ∧
    (ghGetMultipleFiles (fun p => .ok p) ["a", "b"] [1, 0]).Perm
      (["a", "b"].map (ghGetFileInfo (fun p => .ok p))) := by
  refine ⟨⟨by decide, by decide, by decide⟩, ?_, ?_⟩
  · exact getMultipleFiles_ordering.1
      { ignore := [], includeOnly := [], maxFileSize := "", skipBinary := false,
        maxConcurrency := 5, maxMemoryPerFile := 1, maxTotalMemory := 100,
        maxFiles := 10 }
      (fun _ => none) "/cwd" "/base" ["a", "b"] [1, 0]
      (by decide) (by decide) (by decide)
  · exact getMultipleFiles_ordering.2 (fun p => .ok p) ["a", "b"] [1, 0] (by decide)

theorem wrapInt64_eq_self {x : Int} (h1 : -(2 ^ 63) ≤ x) (h2 : x < 2 ^ 63) :
    wrapInt64 x = x := by
  rw [wrapInt64]
  rw [Int.emod_eq_of_lt (by omega) (by omega)]
  omega

/-- C8: the local `GetMultipleFiles` rejects the whole call with the
too-many-files error when more than `maxFiles` paths are requested, rejects
with the memory-limit error when `len(paths) * maxMemoryPerFile` exceeds
`maxTotalMemory` (the conservative product bound, evaluated before any
fetch), and otherwise always succeeds, returning one `FileInfo` per path
with any per-file failure recorded inside that `FileInfo`.  The rejections
are decided before any filesystem access: the result is the same for every
filesystem oracle.  (`maxMemoryPerFile ≥ 0` and the product staying within
`int64` range keep the Go `int64` multiplication un-wrapped.) -/
theorem localGetMultipleFiles_limits :
    ∀ (cfg : ProcessingConfig) (fs : FsOracle) (cwd base : String)
      (paths : List String) (sched : List Nat),
      sched.Perm (List.range paths.length) →
      0 ≤ cfg.maxMemoryPerFile →
      (paths.length : Int) * cfg.maxMemoryPerFile < 2 ^ 63 →
      (localGetMultipleFiles cfg fs cwd base paths sched =
        (if (paths.length : Int) > cfg.maxFiles then
          .error "too many files to process safely"
        else if (paths.length : Int) * cfg.maxMemoryPerFile > cfg.maxTotalMemory then
          .error "estimated memory usage too high"
        else .ok (paths.map (localGetFileInfo fs cwd base)))) ∧
      (((paths.length : Int) > cfg.maxFiles ∨
          (paths.length : Int) * cfg.maxMemoryPerFile > cfg.maxTotalMemory) →
        ∀ fs2 : FsOracle,
          localGetMultipleFiles cfg fs cwd base paths sched =
            localGetMultipleFiles cfg fs2 cwd base paths sched) := by
  intro cfg fs cwd base paths sched hperm hmem hrange
  have hwrap : wrapInt64 ((paths.length : Int) * cfg.maxMemoryPerFile) =
      (paths.length : Int) * cfg.maxMemoryPerFile := by
    apply wrapInt64_eq_self
    · have : (0 : Int) ≤ (paths.length : Int) * cfg.maxMemoryPerFile :=
        mul_nonneg (by positivity) hmem
      omega
    · exact hrange
  constructor
  · by_cases h1 : (paths.length : Int) > cfg.maxFiles
    · rw [if_pos h1, localGetMultipleFiles, if_pos h1]
    · rw [if_neg h1]
      by_cases h2 : (paths.length : Int) * cfg.maxMemoryPerFile > cfg.maxTotalMemory
      · rw [if_pos h2, localGetMultipleFiles, if_neg h1, if_pos (by rw [hwrap]; exact h2)]
      · rw [if_neg h2]
        exact getMultipleFiles_ordering.1 cfg fs cwd base paths sched hperm h1
          (by rw [hwrap]; exact h2)
  · intro hrej fs2
    rcases hrej with h1 | h2
    · rw [localGetMultipleFiles, localGetMultipleFiles, if_pos h1, if_pos h1]
    · by_cases h1 : (paths.length : Int) > cfg.maxFiles
      · rw [localGetMultipleFiles, localGetMultipleFiles, if_pos h1, if_pos h1]
      · rw [localGetMultipleFiles, localGetMultipleFiles, if_neg h1, if_neg h1,
          if_pos (by rw [hwrap]; exact h2), if_pos (by rw [hwrap]; exact h2)]

/-- Witness for C8 at a two-path call that passes both limits, with the
limit checks also exercised through the characterization's branches. -/
theorem localGetMultipleFiles_limits_witness :
    (([1, 0] : List Nat).Perm (List.range 2) ∧
      (0 : Int) ≤ 1 ∧ ((2 : Int) * 1 < 2 ^ 63)) ∧
    localGetMultipleFiles
        { ignore := [], includeOnly := [], maxFileSize := "", skipBinary := false,
          maxConcurrency := 5, maxMemoryPerFile := 1, maxTotalMemory := 100,
          maxFiles := 10 }
        (fun _ => none) "/cwd" "/base" ["a", "b"] [1, 0] =
      (if ((["a", "b"] : List String).length : Int) > (10 : Int) then
        .error "too many files to process safely"
      else if ((["a", "b"] : List String).length : Int) * 1 > (100 : Int) then
        .error "estimated memory usage too high"
      else .ok (["a", "b"].map (localGetFileInfo (fun _ => none) "/cwd" "/base"))) := by
  refine ⟨⟨by decide, by decide, by decide⟩, ?_⟩
  exact (localGetMultipleFiles_limits
    { ignore := [], includeOnly := [], maxFileSize := "", skipBinary := false,
      maxConcurrency := 5, maxMemoryPerFile := 1, maxTotalMemory := 100,
      maxFiles := 10 }
    (fun _ => none) "/cwd" "/base" ["a", "b"] [1, 0]
    (by decide) (by decide) (by decide)).1

/-! ## C5: determinism of `BuildProjectTree` -/

theorem sizeOf_children_lt (n : TreeNode) : sizeOf n.children < sizeOf n := by
  cases n with
  | mk a b c d ch =>
    simp [TreeNode.children]

theorem sortNodeList_eq_map (ns : List TreeNode) :
    sortNodeList ns = ns.map sortNode := by
  induction ns with
  | nil => rfl
  | cons n rest ih =>
    rw [sortNodeList, ih]
    rfl

theorem sortNode_eq (n : TreeNode) :
    sortNode n = .mk n.name n.path n.size n.isDir (sortForest n.children) := by
  cases n with
  | mk a b c d ch =>
    rw [sortNode, sortForest]
    rfl

theorem sortNode_name (n : TreeNode) : (sortNode n).name = n.name := by
  rw [sortNode_eq]
  rfl

theorem sortNode_path (n : TreeNode) : (sortNode n).path = n.path := by
  rw [sortNode_eq]
  rfl

theorem sortNode_size (n : TreeNode) : (sortNode n).size = n.size := by
  rw [sortNode_eq]
  rfl

theorem sortNode_isDir (n : TreeNode) : (sortNode n).isDir = n.isDir := by
  rw [sortNode_eq]
  rfl

theorem sortNode_children (n : TreeNode) :
    (sortNode n).children = sortForest n.children := by
  rw [sortNode_eq]
  rfl

theorem sortNode_eq_iff {n m : TreeNode} :
    sortNode n = sortNode m ↔
      (n.name = m.name ∧ n.path = m.path ∧ n.size = m.size ∧ n.isDir = m.isDir ∧
        sortForest n.children = sortForest m.children) := by
  rw [sortNode_eq, sortNode_eq]
  constructor
  · intro h
    injection h with h1 h2 h3 h4 h5
    exact ⟨h1, h2, h3, h4, h5⟩
  · rintro ⟨h1, h2, h3, h4, h5⟩
    rw [h1, h2, h3, h4, h5]

theorem forestWF_nil : forestWF [] := by
  rw [forestWF]
  trivial

theorem forestWF_cons_iff (n : TreeNode) (ns : List TreeNode) :
    forestWF (n :: ns) ↔ (forestWF n.children ∧ n.name ∉ nodeNames ns ∧ forestWF ns) := by
  cases n with
  | mk a b c d ch =>
    rw [forestWF]
    exact Iff.rfl

theorem forestWF_cons {n : TreeNode} {ns : List TreeNode} (h : forestWF (n :: ns)) :
    forestWF ns ∧ forestWF n.children ∧ n.name ∉ nodeNames ns := by
  rw [forestWF_cons_iff] at h
  exact ⟨h.2.2, h.1, h.2.1⟩

theorem forestWF_iff (ns : List TreeNode) :
    forestWF ns ↔ ((nodeNames ns).Nodup ∧ ∀ n ∈ ns, forestWF n.children) := by
  induction ns with
  | nil => simp [forestWF, nodeNames]
  | cons n rest ih =>
    rw [forestWF_cons_iff, ih]
    simp only [nodeNames, List.map_cons, List.nodup_cons]
    constructor
    · rintro ⟨h1, h2, h3, h4⟩
      refine ⟨⟨h2, h3⟩, ?_⟩
      intro m hm
      rcases List.mem_cons.mp hm with h | h
      · rw [h]
        exact h1
      · exact h4 m h
    · rintro ⟨⟨h2, h3⟩, h4⟩
      exact ⟨h4 n (List.mem_cons_self n rest), h2, h3,
        fun m hm => h4 m (List.mem_cons_of_mem n hm)⟩

theorem pairwiseLeOk_iff_chain :
    ∀ ns : List TreeNode, pairwiseLeOk ns = true ↔ List.Chain' nodeLeP ns := by
  intro ns
  induction ns with
  | nil => simp [pairwiseLeOk]
  | cons a rest ih =>
    cases rest with
    | nil => simp [pairwiseLeOk]
    | cons b rest2 =>
      rw [pairwiseLeOk]
      rw [List.chain'_cons]
      rw [Bool.and_eq_true, ih]
      rfl

theorem allNodesSortedOk_iff :
    ∀ ns : List TreeNode, allNodesSortedOk ns = true ↔ ∀ n ∈ ns, nodeSortedOk n = true := by
  intro ns
  induction ns with
  | nil => simp [allNodesSortedOk]
  | cons a rest ih =>
    rw [allNodesSortedOk, Bool.and_eq_true, ih]
    constructor
    · rintro ⟨h1, h2⟩ n hn
      rcases List.mem_cons.mp hn with h | h
      · rw [h]
        exact h1
      · exact h2 n h
    · intro h
      exact ⟨h a (List.mem_cons_self a rest),
        fun n hn => h n (List.mem_cons_of_mem a hn)⟩

/-- A sorted sibling list with distinct names is uniquely determined by its
multiset of nodes: `nodeLe` is antisymmetric on nodes with distinct names. -/
theorem sorted_unique :
    ∀ (l1 l2 : List TreeNode), l1.Perm l2 → l1.Pairwise nodeLeP →
      l2.Pairwise nodeLeP → (nodeNames l1).Nodup → l1 = l2 := by
  intro l1
  induction l1 with
  | nil =>
    intro l2 hp _ _ _
    exact (List.Perm.nil_eq hp).symm ▸ rfl
  | cons a t1 ih =>
    intro l2 hp hs1 hs2 hnd
    cases l2 with
    | nil => exact absurd hp.symm (by simp)
    | cons b t2 =>
      by_cases hab : a = b
      · subst hab
        have hpt := hp.cons_inv
        rw [List.pairwise_cons] at hs1 hs2
        rw [nodeNames, List.map_cons, List.nodup_cons] at hnd
        rw [ih t2 hpt hs1.2 hs2.2 hnd.2]
      · exfalso
        have hbmem : b ∈ a :: t1 := hp.mem_iff.mpr (List.mem_cons_self b t2)
        have hamem : a ∈ b :: t2 := hp.mem_iff.mp (List.mem_cons_self a t1)
        have hbt1 : b ∈ t1 := by
          rcases List.mem_cons.mp hbmem with h | h
          · exact absurd h.symm hab
          · exact h
        have hat2 : a ∈ t2 := by
          rcases List.mem_cons.mp hamem with h | h
          · exact absurd h hab
          · exact h
        have hab1 : nodeLeP a b := (List.pairwise_cons.mp hs1).1 b hbt1
        have hba1 : nodeLeP b a := (List.pairwise_cons.mp hs2).1 a hat2
        have hname : a.name ≠ b.name := by
          rw [nodeNames, List.map_cons, List.nodup_cons] at hnd
          intro hne
          exact hnd.1 (hne ▸ List.mem_map_of_mem TreeNode.name hbt1)
        rw [nodeLeP, nodeLe] at hab1 hba1
        by_cases hd : a.isDir = b.isDir
        · rw [if_neg (by simp [hd]), decide_eq_true_eq] at hab1
          rw [if_neg (by simp [hd]), decide_eq_true_eq] at hba1
          exact hname (le_antisymm hab1 hba1)
        · rw [if_pos hd] at hab1
          rw [if_pos (fun hh => hd hh.symm)] at hba1
          rw [hab1] at hd
          rw [hba1] at hd
          exact hd rfl

theorem pairwiseLeOk_iff_pairwise (ns : List TreeNode) :
    pairwiseLeOk ns = true ↔ ns.Pairwise nodeLeP := by
  rw [pairwiseLeOk_iff_chain, List.chain'_iff_pairwise]

theorem nodeNames_map_sortNode (ns : List TreeNode) :
    nodeNames (ns.map sortNode) = nodeNames ns := by
  induction ns with
  | nil => rfl
  | cons n rest ih =>
    rw [List.map_cons, nodeNames, List.map_cons, sortNode_name]
    rw [nodeNames] at ih
    rw [ih]
    rfl

theorem sortForest_perm (ns : List TreeNode) :
    (sortForest ns).Perm (ns.map sortNode) := by
  rw [sortForest, sortNodeList_eq_map]
  exact List.perm_insertionSort nodeLeP (ns.map sortNode)

theorem nodeSortedOk_eq_forestSortedOk (n : TreeNode) :
    nodeSortedOk n = forestSortedOk n.children := by
  cases n with
  | mk a b c d ch =>
    rw [nodeSortedOk, forestSortedOk]
    rfl

theorem forestSortedOk_iff (ns : List TreeNode) :
    forestSortedOk ns = true ↔
      (pairwiseLeOk ns = true ∧ ∀ n ∈ ns, nodeSortedOk n = true) := by
  rw [forestSortedOk, Bool.and_eq_true, allNodesSortedOk_iff]

theorem forestSortedOk_sortForest_aux :
    ∀ N ns, sizeOf ns < N → forestSortedOk (sortForest ns) = true := by
  intro N
  induction N with
  | zero => exact fun ns h => absurd h (Nat.not_lt_zero _)
  | succ N ih =>
    intro ns hsz
    rw [forestSortedOk_iff]
    constructor
    · rw [pairwiseLeOk_iff_pairwise, sortForest, sortNodeList_eq_map]
      exact List.sorted_insertionSort nodeLeP (ns.map sortNode)
    · intro m hm
      have hm2 : m ∈ ns.map sortNode := (sortForest_perm ns).mem_iff.mp hm
      obtain ⟨n, hn, hmn⟩ := List.mem_map.mp hm2
      rw [← hmn, nodeSortedOk_eq_forestSortedOk, sortNode_children]
      have h1 : sizeOf n < sizeOf ns := List.sizeOf_lt_of_mem hn
      have h2 : sizeOf n.children < sizeOf n := sizeOf_children_lt n
      exact ih n.children (by omega)

theorem forestSortedOk_sortForest (ns : List TreeNode) :
    forestSortedOk (sortForest ns) = true :=
  forestSortedOk_sortForest_aux (sizeOf ns + 1) ns (Nat.lt_succ_self _)

theorem nodeSortedOk_sortNode (n : TreeNode) :
    nodeSortedOk (sortNode n) = true := by
  rw [nodeSortedOk_eq_forestSortedOk, sortNode_children]
  exact forestSortedOk_sortForest n.children

theorem sortForest_eq_self_aux :
    ∀ N ns, sizeOf ns < N → forestSortedOk ns = true → sortForest ns = ns := by
  intro N
  induction N with
  | zero => exact fun ns h => absurd h (Nat.not_lt_zero _)
  | succ N ih =>
    intro ns hsz hok
    rw [forestSortedOk_iff] at hok
    have hone : ∀ n ∈ ns, sortNode n = id n := by
      intro n hn
      have hnok := hok.2 n hn
      rw [nodeSortedOk_eq_forestSortedOk] at hnok
      have h1 : sizeOf n < sizeOf ns := List.sizeOf_lt_of_mem hn
      have h2 : sizeOf n.children < sizeOf n := sizeOf_children_lt n
      have hch : sortForest n.children = n.children := ih n.children (by omega) hnok
      rw [sortNode_eq, hch]
      cases n
      rfl
    have hmap : ns.map sortNode = ns := by
      rw [List.map_congr_left hone, List.map_id]
    rw [sortForest, sortNodeList_eq_map, hmap]
    exact List.Sorted.insertionSort_eq ((pairwiseLeOk_iff_pairwise ns).mp hok.1)

theorem sortForest_eq_self {ns : List TreeNode} (h : forestSortedOk ns = true) :
    sortForest ns = ns :=
  sortForest_eq_self_aux (sizeOf ns + 1) ns (Nat.lt_succ_self _) h

theorem sortForest_idem (ns : List TreeNode) :
    sortForest (sortForest ns) = sortForest ns :=
  sortForest_eq_self (forestSortedOk_sortForest ns)

theorem forestWF_sortForest_aux :
    ∀ N ns, sizeOf ns < N → forestWF ns → forestWF (sortForest ns) := by
  intro N
  induction N with
  | zero => exact fun ns h => absurd h (Nat.not_lt_zero _)
  | succ N ih =>
    intro ns hsz hwf
    rw [forestWF_iff] at hwf ⊢
    constructor
    · have hperm : (nodeNames (sortForest ns)).Perm (nodeNames ns) := by
        have h1 := (sortForest_perm ns).map TreeNode.name
        rw [show (ns.map sortNode).map TreeNode.name = nodeNames (ns.map sortNode) from rfl,
          nodeNames_map_sortNode] at h1
        exact h1
      exact hperm.nodup_iff.mpr hwf.1
    · intro m hm
      have hm2 : m ∈ ns.map sortNode := (sortForest_perm ns).mem_iff.mp hm
      obtain ⟨n, hn, hmn⟩ := List.mem_map.mp hm2
      rw [← hmn, sortNode_children]
      have h1 : sizeOf n < sizeOf ns := List.sizeOf_lt_of_mem hn
      have h2 : sizeOf n.children < sizeOf n := sizeOf_children_lt n
      exact ih n.children (by omega) (hwf.2 n hn)

theorem forestWF_sortForest {ns : List TreeNode} (h : forestWF ns) :
    forestWF (sortForest ns) :=
  forestWF_sortForest_aux (sizeOf ns + 1) ns (Nat.lt_succ_self _) h

theorem insertParts_nil_parts (f : FileInfo) (pref : String) (nodes : List TreeNode) :
    insertParts f [] pref nodes = nodes := by
  rw [insertParts]

theorem insertParts_last_nil (f : FileInfo) (p : String) (pref : String) :
    insertParts f [p] pref [] =
      [.mk p (childPath pref p) (if f.isDir then 0 else f.size) f.isDir []] := by
  rw [insertParts]

theorem insertParts_mid_nil (f : FileInfo) (p q : String) (rest : List String)
    (pref : String) :
    insertParts f (p :: q :: rest) pref [] =
      [.mk p (childPath pref p) 0 true (insertParts f (q :: rest) (childPath pref p) [])] := by
  rw [insertParts]

theorem insertParts_last_found (f : FileInfo) (p : String) (pref : String)
    (n : TreeNode) (ns : List TreeNode) (h : n.name = p) :
    insertParts f [p] pref (n :: ns) =
      (if f.isDir then n else .mk n.name n.path f.size false n.children) :: ns := by
  rw [insertParts, if_pos h]

theorem insertParts_last_miss (f : FileInfo) (p : String) (pref : String)
    (n : TreeNode) (ns : List TreeNode) (h : ¬(n.name = p)) :
    insertParts f [p] pref (n :: ns) = n :: insertParts f [p] pref ns := by
  rw [insertParts, if_neg h]

theorem insertParts_mid_found (f : FileInfo) (p q : String) (rest : List String)
    (pref : String) (n : TreeNode) (ns : List TreeNode) (h : n.name = p) :
    insertParts f (p :: q :: rest) pref (n :: ns) =
      .mk n.name n.path n.size n.isDir
        (insertParts f (q :: rest) (childPath pref p) n.children) :: ns := by
  rw [insertParts, if_pos h]

theorem insertParts_mid_miss (f : FileInfo) (p q : String) (rest : List String)
    (pref : String) (n : TreeNode) (ns : List TreeNode) (h : ¬(n.name = p)) :
    insertParts f (p :: q :: rest) pref (n :: ns) =
      n :: insertParts f (p :: q :: rest) pref ns := by
  rw [insertParts, if_neg h]

/-- Inserting a path whose first part is `p` leaves the sibling-name list
unchanged when `p` is already present, and appends `p` otherwise. -/
theorem insertParts_names (f : FileInfo) (p : String) (rest : List String)
    (pref : String) :
    ∀ nodes : List TreeNode,
      nodeNames (insertParts f (p :: rest) pref nodes) =
        if p ∈ nodeNames nodes then nodeNames nodes else nodeNames nodes ++ [p] := by
  intro nodes
  induction nodes with
  | nil =>
    cases rest with
    | nil =>
      rw [insertParts_last_nil]
      simp [nodeNames, TreeNode.name]
    | cons q r2 =>
      rw [insertParts_mid_nil]
      simp [nodeNames, TreeNode.name]
  | cons n ns ih =>
    by_cases h : n.name = p
    · have hmem : p ∈ nodeNames (n :: ns) := by
        rw [nodeNames, List.map_cons, ← h]
        exact List.mem_cons_self _ _
      rw [if_pos hmem]
      cases rest with
      | nil =>
        rw [insertParts_last_found f p pref n ns h]
        by_cases hd : f.isDir
        · rw [if_pos hd]
        · rw [if_neg hd]
          rw [nodeNames, nodeNames, List.map_cons, List.map_cons]
          rfl
      | cons q r2 =>
        rw [insertParts_mid_found f p q r2 pref n ns h]
        rw [nodeNames, nodeNames, List.map_cons, List.map_cons]
        rfl
    · have hiff : (p ∈ nodeNames (n :: ns)) ↔ (p ∈ nodeNames ns) := by
        rw [nodeNames, List.map_cons, List.mem_cons]
        constructor
        · rintro (hh | hh)
          · exact absurd hh.symm h
          · exact hh
        · exact fun hh => Or.inr hh
      have hstep : insertParts f (p :: rest) pref (n :: ns) =
          n :: insertParts f (p :: rest) pref ns := by
        cases rest with
        | nil => exact insertParts_last_miss f p pref n ns h
        | cons q r2 => exact insertParts_mid_miss f p q r2 pref n ns h
      rw [hstep]
      simp only [nodeNames, List.map_cons] at ih hiff ⊢
      rw [ih]
      by_cases hmem : p ∈ List.map TreeNode.name ns
      · rw [if_pos hmem, if_pos (hiff.mpr hmem)]
      · rw [if_neg hmem, if_neg (fun hh => hmem (hiff.mp hh)), List.cons_append]

theorem insertParts_wf_aux :
    ∀ N (parts : List String) (f : FileInfo) (pref : String) (nodes : List TreeNode),
      parts.length + sizeOf nodes < N → forestWF nodes →
        forestWF (insertParts f parts pref nodes) := by
  intro N
  induction N with
  | zero => exact fun parts f pref nodes h => absurd h (Nat.not_lt_zero _)
  | succ N ih =>
    intro parts f pref nodes hsz hwf
    cases parts with
    | nil =>
      rw [insertParts_nil_parts]
      exact hwf
    | cons p rest =>
      cases nodes with
      | nil =>
        cases rest with
        | nil =>
          rw [insertParts_last_nil]
          rw [forestWF_cons_iff]
          exact ⟨forestWF_nil, by simp [nodeNames], forestWF_nil⟩
        | cons q r2 =>
          rw [insertParts_mid_nil]
          rw [forestWF_cons_iff]
          refine ⟨?_, by simp [nodeNames], forestWF_nil⟩
          have hlen : (q :: r2).length + sizeOf ([] : List TreeNode) < N := by
            have : sizeOf ([] : List TreeNode) = 1 := by simp
            simp only [List.length_cons] at hsz ⊢
            omega
          exact ih (q :: r2) f (childPath pref p) [] hlen forestWF_nil
      | cons n ns =>
        obtain ⟨hwfns, hwfch, hnm⟩ := forestWF_cons hwf
        have hszc : sizeOf (n :: ns) = 1 + sizeOf n + sizeOf ns := by simp
        by_cases h : n.name = p
        · cases rest with
          | nil =>
            rw [insertParts_last_found f p pref n ns h]
            by_cases hd : f.isDir
            · rw [if_pos hd]
              exact hwf
            · rw [if_neg hd]
              rw [forestWF_cons_iff]
              exact ⟨hwfch, hnm, hwfns⟩
          | cons q r2 =>
            rw [insertParts_mid_found f p q r2 pref n ns h]
            rw [forestWF_cons_iff]
            refine ⟨?_, hnm, hwfns⟩
            have hchsz : sizeOf n.children < sizeOf n := sizeOf_children_lt n
            have hlen : (q :: r2).length + sizeOf n.children < N := by
              simp only [List.length_cons] at hsz ⊢
              omega
            exact ih (q :: r2) f (childPath pref p) n.children hlen hwfch
        · have hstep : insertParts f (p :: rest) pref (n :: ns) =
              n :: insertParts f (p :: rest) pref ns := by
            cases rest with
            | nil => exact insertParts_last_miss f p pref n ns h
            | cons q r2 => exact insertParts_mid_miss f p q r2 pref n ns h
          rw [hstep, forestWF_cons_iff]
          refine ⟨hwfch, ?_, ?_⟩
          · rw [insertParts_names]
            by_cases hmem : p ∈ nodeNames ns
            · rw [if_pos hmem]
              exact hnm
            · rw [if_neg hmem]
              intro hin
              rcases List.mem_append.mp hin with hin | hin
              · exact hnm hin
              · exact h (List.mem_singleton.mp hin)
          · have hlen : (p :: rest).length + sizeOf ns < N := by
              have hn1 : 0 < sizeOf n := by
                cases n
                simp
              omega
            exact ih (p :: rest) f pref ns hlen hwfns

theorem insertFile_wf {nodes : List TreeNode} (f : FileInfo) (h : forestWF nodes) :
    forestWF (insertFile nodes f) := by
  rw [insertFile]
  by_cases hp : f.path = ""
  · rw [if_pos hp]
    exact h
  · rw [if_neg hp]
    exact insertParts_wf_aux ((goSplitSlash f.path).length + sizeOf nodes + 1)
      (goSplitSlash f.path) f "" nodes (Nat.lt_succ_self _) h

theorem buildForest_wf (files : List FileInfo) : forestWF (buildForest files) := by
  rw [buildForest]
  have hgen : ∀ (l : List FileInfo) (acc : List TreeNode), forestWF acc →
      forestWF (l.foldl insertFile acc) := by
    intro l
    induction l with
    | nil => exact fun acc h => h
    | cons f rest ihl =>
      intro acc hacc
      rw [List.foldl_cons]
      exact ihl (insertFile acc f) (insertFile_wf f hacc)
  exact hgen files [] forestWF_nil

theorem updOne_name (f : FileInfo) (p : String) (rest : List String) (pref : String)
    (n : TreeNode) : (updOne f p rest pref n).name = n.name := by
  rw [updOne.eq_def]
  cases rest with
  | nil =>
    by_cases hd : f.isDir
    · rw [if_pos hd]
    · rw [if_neg hd]
      rfl
  | cons q r2 => rfl

theorem insertParts_miss (f : FileInfo) (p : String) (rest : List String)
    (pref : String) (n : TreeNode) (ns : List TreeNode) (h : ¬(n.name = p)) :
    insertParts f (p :: rest) pref (n :: ns) =
      n :: insertParts f (p :: rest) pref ns := by
  cases rest with
  | nil => exact insertParts_last_miss f p pref n ns h
  | cons q r2 => exact insertParts_mid_miss f p q r2 pref n ns h

theorem insertParts_found (f : FileInfo) (p : String) (rest : List String)
    (pref : String) (n : TreeNode) (ns : List TreeNode) (h : n.name = p) :
    insertParts f (p :: rest) pref (n :: ns) = updOne f p rest pref n :: ns := by
  cases rest with
  | nil =>
    rw [insertParts_last_found f p pref n ns h, updOne]
  | cons q r2 =>
    rw [insertParts_mid_found f p q r2 pref n ns h, updOne]

/-- A fresh top-level insertion into the empty sibling list produces one
node named after the first path part. -/
theorem insertParts_fresh_names (f : FileInfo) (p : String) (rest : List String)
    (pref : String) :
    nodeNames (insertParts f (p :: rest) pref []) = [p] := by
  rw [insertParts_names]
  simp [nodeNames]

/-- When the first part is absent from the sibling names, insertion walks
past every sibling and appends the fresh subtree at the end. -/
theorem insertParts_absent (f : FileInfo) (p : String) (rest : List String)
    (pref : String) :
    ∀ nodes : List TreeNode, p ∉ nodeNames nodes →
      insertParts f (p :: rest) pref nodes =
        nodes ++ insertParts f (p :: rest) pref [] := by
  intro nodes
  induction nodes with
  | nil =>
    intro _
    rw [List.nil_append]
  | cons n ns ih =>
    intro hmem
    have hname : ¬(n.name = p) := by
      intro hh
      exact hmem (by rw [nodeNames, List.map_cons, ← hh]; exact List.mem_cons_self _ _)
    have hmem2 : p ∉ nodeNames ns := by
      intro hh
      exact hmem (by rw [nodeNames, List.map_cons]; exact List.mem_cons_of_mem _ hh)
    rw [insertParts_miss f p rest pref n ns hname, ih hmem2, List.cons_append]

/-- When the first part names an existing sibling, insertion rewrites that
sibling in place and leaves everything else untouched. -/
theorem insertParts_present (f : FileInfo) (p : String) (rest : List String)
    (pref : String) :
    ∀ (X1 : List TreeNode) (n : TreeNode) (X2 : List TreeNode),
      p ∉ nodeNames X1 → n.name = p →
        insertParts f (p :: rest) pref (X1 ++ n :: X2) =
          X1 ++ updOne f p rest pref n :: X2 := by
  intro X1
  induction X1 with
  | nil =>
    intro n X2 _ hn
    rw [List.nil_append, List.nil_append]
    exact insertParts_found f p rest pref n X2 hn
  | cons a X1t ih =>
    intro n X2 hmem hn
    have hname : ¬(a.name = p) := by
      intro hh
      exact hmem (by rw [nodeNames, List.map_cons, ← hh]; exact List.mem_cons_self _ _)
    have hmem2 : p ∉ nodeNames X1t := by
      intro hh
      exact hmem (by rw [nodeNames, List.map_cons]; exact List.mem_cons_of_mem _ hh)
    rw [List.cons_append, insertParts_miss f p rest pref a _ hname, ih n X2 hmem2 hn,
      List.cons_append]

/-- Any present name splits the sibling list around its (first) holder. -/
theorem mem_name_decomp (p : String) :
    ∀ X : List TreeNode, p ∈ nodeNames X →
      ∃ X1 n X2, X = X1 ++ n :: X2 ∧ n.name = p ∧ p ∉ nodeNames X1 := by
  intro X
  induction X with
  | nil =>
    intro h
    exact absurd h (by simp [nodeNames])
  | cons a Xt ih =>
    intro h
    by_cases ha : a.name = p
    · exact ⟨[], a, Xt, by rw [List.nil_append], ha, by simp [nodeNames]⟩
    · have h2 : p ∈ nodeNames Xt := by
        rw [nodeNames, List.map_cons, List.mem_cons] at h
        rcases h with h | h
        · exact absurd h.symm ha
        · exact h
      obtain ⟨X1, n, X2, heq, hn, hmem⟩ := ih h2
      refine ⟨a :: X1, n, X2, by rw [heq, List.cons_append], hn, ?_⟩
      rw [nodeNames, List.map_cons, List.mem_cons]
      rintro (hh | hh)
      · exact ha hh.symm
      · exact hmem hh

/-- In a sibling list with distinct names, nodes are determined by name. -/
theorem mem_name_unique :
    ∀ L : List TreeNode, (nodeNames L).Nodup → ∀ a ∈ L, ∀ b ∈ L,
      a.name = b.name → a = b := by
  intro L
  induction L with
  | nil =>
    intro _ a ha
    exact absurd ha (List.not_mem_nil a)
  | cons x Lt ih =>
    intro hnd a ha b hb hab
    rw [nodeNames, List.map_cons, List.nodup_cons] at hnd
    rcases List.mem_cons.mp ha with ha | ha <;> rcases List.mem_cons.mp hb with hb | hb
    · rw [ha, hb]
    · exfalso
      apply hnd.1
      rw [show x.name = b.name from ha ▸ hab]
      exact List.mem_map_of_mem TreeNode.name hb
    · exfalso
      apply hnd.1
      rw [show x.name = a.name from hb ▸ hab.symm]
      exact List.mem_map_of_mem TreeNode.name ha
    · exact ih hnd.2 a ha b hb hab

theorem nodeNames_append (A B : List TreeNode) :
    nodeNames (A ++ B) = nodeNames A ++ nodeNames B := by
  rw [nodeNames, nodeNames, nodeNames, List.map_append]

theorem nodeNames_cons (n : TreeNode) (ns : List TreeNode) :
    nodeNames (n :: ns) = n.name :: nodeNames ns := rfl

theorem nodeNames_sortForest_perm (ns : List TreeNode) :
    (nodeNames (sortForest ns)).Perm (nodeNames ns) := by
  have h1 := (sortForest_perm ns).map TreeNode.name
  rw [show (ns.map sortNode).map TreeNode.name = nodeNames (ns.map sortNode) from rfl,
    nodeNames_map_sortNode] at h1
  exact h1

theorem map_sortNode_perm_of_sortForest_eq {X Y : List TreeNode}
    (hs : sortForest X = sortForest Y) :
    (X.map sortNode).Perm (Y.map sortNode) :=
  (sortForest_perm X).symm.trans (by rw [hs]; exact sortForest_perm Y)

theorem nodeNames_perm_of_sortForest_eq {X Y : List TreeNode}
    (hs : sortForest X = sortForest Y) :
    (nodeNames X).Perm (nodeNames Y) := by
  have h1 := (map_sortNode_perm_of_sortForest_eq hs).map TreeNode.name
  rw [show (X.map sortNode).map TreeNode.name = nodeNames (X.map sortNode) from rfl,
    show (Y.map sortNode).map TreeNode.name = nodeNames (Y.map sortNode) from rfl,
    nodeNames_map_sortNode, nodeNames_map_sortNode] at h1
  exact h1

/-- `insertionSort` by `nodeLeP` is invariant under permutation of a
distinct-name sibling list. -/
theorem isort_congr {l1 l2 : List TreeNode} (hp : l1.Perm l2)
    (hnd : (nodeNames l1).Nodup) :
    List.insertionSort nodeLeP l1 = List.insertionSort nodeLeP l2 := by
  apply sorted_unique
  · exact (List.perm_insertionSort nodeLeP l1).trans
      (hp.trans (List.perm_insertionSort nodeLeP l2).symm)
  · exact List.sorted_insertionSort nodeLeP l1
  · exact List.sorted_insertionSort nodeLeP l2
  · rw [nodeNames]
    exact ((List.perm_insertionSort nodeLeP l1).map TreeNode.name).nodup_iff.mpr hnd

theorem insertParts_congr_aux :
    ∀ N (parts : List String) (f : FileInfo) (pref : String) (X Y : List TreeNode),
      parts.length < N → forestWF X → forestWF Y → sortForest X = sortForest Y →
        sortForest (insertParts f parts pref X) =
          sortForest (insertParts f parts pref Y) := by
  intro N
  induction N with
  | zero => exact fun parts f pref X Y h => absurd h (Nat.not_lt_zero _)
  | succ N ih =>
    intro parts f pref X Y hlen hwfX hwfY hs
    cases parts with
    | nil =>
      rw [insertParts_nil_parts, insertParts_nil_parts]
      exact hs
    | cons p rest =>
      have hperm := map_sortNode_perm_of_sortForest_eq hs
      have hnames := nodeNames_perm_of_sortForest_eq hs
      have hndX : (nodeNames X).Nodup := ((forestWF_iff X).mp hwfX).1
      have hndY : (nodeNames Y).Nodup := ((forestWF_iff Y).mp hwfY).1
      by_cases hpx : p ∈ nodeNames X
      · have hpy : p ∈ nodeNames Y := hnames.mem_iff.mp hpx
        obtain ⟨X1, n, X2, hXeq, hnp, hX1⟩ := mem_name_decomp p X hpx
        obtain ⟨Y1, m, Y2, hYeq, hmp, hY1⟩ := mem_name_decomp p Y hpy
        subst hXeq
        subst hYeq
        have hnX : n ∈ X1 ++ n :: X2 := by simp
        have hmY : m ∈ Y1 ++ m :: Y2 := by simp
        have hndsX : (nodeNames (sortForest (X1 ++ n :: X2))).Nodup :=
          (nodeNames_sortForest_perm _).nodup_iff.mpr hndX
        have hmemsX : sortNode n ∈ sortForest (X1 ++ n :: X2) :=
          (sortForest_perm _).mem_iff.mpr (List.mem_map_of_mem sortNode hnX)
        have hmemsY : sortNode m ∈ sortForest (X1 ++ n :: X2) := by
          rw [hs]
          exact (sortForest_perm _).mem_iff.mpr (List.mem_map_of_mem sortNode hmY)
        have hnm : sortNode n = sortNode m :=
          mem_name_unique (sortForest (X1 ++ n :: X2)) hndsX _ hmemsX _ hmemsY
            (by rw [sortNode_name, sortNode_name, hnp, hmp])
        obtain ⟨e1, e2, e3, e4, e5⟩ := sortNode_eq_iff.mp hnm
        have hwfn : forestWF n.children := ((forestWF_iff _).mp hwfX).2 n hnX
        have hwfm : forestWF m.children := ((forestWF_iff _).mp hwfY).2 m hmY
        have hupd : sortNode (updOne f p rest pref n) = sortNode (updOne f p rest pref m) := by
          cases rest with
          | nil =>
            simp only [updOne]
            by_cases hd : f.isDir
            · rw [if_pos hd, if_pos hd]
              exact hnm
            · rw [if_neg hd, if_neg hd]
              exact sortNode_eq_iff.mpr ⟨e1, e2, rfl, rfl, e5⟩
          | cons q r2 =>
            simp only [updOne]
            refine sortNode_eq_iff.mpr ⟨e1, e2, e3, e4, ?_⟩
            have hlen2 : (q :: r2).length < N := by
              simp only [List.length_cons] at hlen ⊢
              omega
            exact ih (q :: r2) f (childPath pref p) n.children m.children hlen2 hwfn hwfm e5
        rw [insertParts_present f p rest pref X1 n X2 hX1 hnp,
          insertParts_present f p rest pref Y1 m Y2 hY1 hmp]
        rw [sortForest, sortForest, sortNodeList_eq_map, sortNodeList_eq_map]
        apply isort_congr
        · rw [List.map_append, List.map_cons, List.map_append, List.map_cons]
          rw [List.map_append, List.map_cons, List.map_append, List.map_cons] at hperm
          have hcancel : (X1.map sortNode ++ X2.map sortNode).Perm
              (Y1.map sortNode ++ Y2.map sortNode) := by
            have hx := List.perm_middle.symm.trans
              (hperm.trans (List.perm_middle))
            rw [hnm] at hx
            exact hx.cons_inv
          exact List.perm_middle.trans ((hcancel.cons _).trans
            (by rw [hupd]; exact List.perm_middle.symm))
        · rw [nodeNames_map_sortNode, nodeNames_append, nodeNames_cons, updOne_name]
          rw [nodeNames_append, nodeNames_cons] at hndX
          exact hndX
      · have hpy : p ∉ nodeNames Y := fun hh => hpx (hnames.mem_iff.mpr hh)
        rw [insertParts_absent f p rest pref X hpx, insertParts_absent f p rest pref Y hpy]
        rw [sortForest, sortForest, sortNodeList_eq_map, sortNodeList_eq_map]
        apply isort_congr
        · rw [List.map_append, List.map_append]
          exact hperm.append_right _
        · rw [nodeNames_map_sortNode, nodeNames_append, insertParts_fresh_names]
          rw [List.nodup_append]
          exact ⟨hndX, List.nodup_singleton p,
            by intro a ha hb; rw [List.mem_singleton] at hb; exact hpx (hb ▸ ha)⟩

theorem insertParts_congr {X Y : List TreeNode} (parts : List String) (f : FileInfo)
    (pref : String) (hwfX : forestWF X) (hwfY : forestWF Y)
    (hs : sortForest X = sortForest Y) :
    sortForest (insertParts f parts pref X) = sortForest (insertParts f parts pref Y) :=
  insertParts_congr_aux (parts.length + 1) parts f pref X Y (Nat.lt_succ_self _)
    hwfX hwfY hs

theorem insertFile_congr {X Y : List TreeNode} (f : FileInfo)
    (hwfX : forestWF X) (hwfY : forestWF Y) (hs : sortForest X = sortForest Y) :
    sortForest (insertFile X f) = sortForest (insertFile Y f) := by
  rw [insertFile, insertFile]
  by_cases hp : f.path = ""
  · rw [if_pos hp, if_pos hp]
    exact hs
  · rw [if_neg hp, if_neg hp]
    exact insertParts_congr (goSplitSlash f.path) f "" hwfX hwfY hs

theorem insertParts_wf (parts : List String) (f : FileInfo) (pref : String)
    {nodes : List TreeNode} (h : forestWF nodes) :
    forestWF (insertParts f parts pref nodes) :=
  insertParts_wf_aux (parts.length + sizeOf nodes + 1) parts f pref nodes
    (Nat.lt_succ_self _) h

theorem mem_nodeNames_insertParts {x : String} (f : FileInfo) (p : String)
    (rest : List String) (pref : String) (nodes : List TreeNode)
    (h : x ∈ nodeNames (insertParts f (p :: rest) pref nodes)) :
    x ∈ nodeNames nodes ∨ x = p := by
  rw [insertParts_names] at h
  by_cases hmem : p ∈ nodeNames nodes
  · rw [if_pos hmem] at h
    exact Or.inl h
  · rw [if_neg hmem] at h
    rcases List.mem_append.mp h with h | h
    · exact Or.inl h
    · exact Or.inr (List.mem_singleton.mp h)

theorem sortForest_cons_congr {A B : List TreeNode} (n : TreeNode)
    (hs : sortForest A = sortForest B) (hnd : (nodeNames (n :: A)).Nodup) :
    sortForest (n :: A) = sortForest (n :: B) := by
  rw [sortForest, sortForest, sortNodeList_eq_map, sortNodeList_eq_map,
    List.map_cons, List.map_cons]
  apply isort_congr
  · exact (map_sortNode_perm_of_sortForest_eq hs).cons _
  · rw [show sortNode n :: A.map sortNode = (n :: A).map sortNode from rfl,
      nodeNames_map_sortNode]
    exact hnd

theorem sortForest_cons_children_congr (a b : String) (c : Int) (d : Bool)
    {C C2 : List TreeNode} (ns : List TreeNode)
    (hs : sortForest C = sortForest C2) :
    sortForest (.mk a b c d C :: ns) = sortForest (.mk a b c d C2 :: ns) := by
  have h : sortNode (.mk a b c d C) = sortNode (.mk a b c d C2) :=
    sortNode_eq_iff.mpr ⟨rfl, rfl, rfl, rfl, hs⟩
  rw [sortForest, sortForest, sortNodeList_eq_map, sortNodeList_eq_map,
    List.map_cons, List.map_cons, h]

theorem sizeOf_treeNode_pos (n : TreeNode) : 0 < sizeOf n := by
  cases n
  simp

theorem insertParts_swap_aux :
    ∀ N (pa pb : List String) (f g : FileInfo) (pref : String) (Z : List TreeNode),
      pa.length + pb.length + sizeOf Z < N → pa ≠ pb → forestWF Z →
        sortForest (insertParts g pb pref (insertParts f pa pref Z)) =
          sortForest (insertParts f pa pref (insertParts g pb pref Z)) := by
  intro N
  induction N with
  | zero => exact fun pa pb f g pref Z h => absurd h (Nat.not_lt_zero _)
  | succ N ih =>
    intro pa pb f g pref Z hsz hne hwf
    cases pa with
    | nil => rw [insertParts_nil_parts, insertParts_nil_parts]
    | cons p ra =>
      cases pb with
      | nil => rw [insertParts_nil_parts, insertParts_nil_parts]
      | cons p2 rb =>
        by_cases hpp : p = p2
        · subst hpp
          have hrr : ra ≠ rb := fun h => hne (by rw [h])
          cases Z with
          | nil =>
            cases ra with
            | nil =>
              cases rb with
              | nil => exact absurd rfl hrr
              | cons q rb2 =>
                rw [insertParts_last_nil f p pref, insertParts_mid_nil g p q rb2 pref]
                rw [insertParts_mid_found g p q rb2 pref
                  (.mk p (childPath pref p) (if f.isDir then 0 else f.size) f.isDir [])
                  [] rfl]
                rw [insertParts_last_found f p pref
                  (.mk p (childPath pref p) 0 true
                    (insertParts g (q :: rb2) (childPath pref p) [])) [] rfl]
                by_cases hd : f.isDir <;>
                  simp [hd, TreeNode.name, TreeNode.path, TreeNode.size, TreeNode.isDir,
                    TreeNode.children]
            | cons q ra2 =>
              cases rb with
              | nil =>
                rw [insertParts_mid_nil f p q ra2 pref, insertParts_last_nil g p pref]
                rw [insertParts_last_found g p pref
                  (.mk p (childPath pref p) 0 true
                    (insertParts f (q :: ra2) (childPath pref p) [])) [] rfl]
                rw [insertParts_mid_found f p q ra2 pref
                  (.mk p (childPath pref p) (if g.isDir then 0 else g.size) g.isDir [])
                  [] rfl]
                by_cases hd : g.isDir <;>
                  simp [hd, TreeNode.name, TreeNode.path, TreeNode.size, TreeNode.isDir,
                    TreeNode.children]
              | cons q2 rb2 =>
                rw [insertParts_mid_nil f p q ra2 pref, insertParts_mid_nil g p q2 rb2 pref]
                rw [insertParts_mid_found g p q2 rb2 pref
                  (.mk p (childPath pref p) 0 true
                    (insertParts f (q :: ra2) (childPath pref p) [])) [] rfl]
                rw [insertParts_mid_found f p q ra2 pref
                  (.mk p (childPath pref p) 0 true
                    (insertParts g (q2 :: rb2) (childPath pref p) [])) [] rfl]
                simp only [TreeNode.name, TreeNode.path, TreeNode.size, TreeNode.isDir,
                  TreeNode.children]
                have hlen : (q :: ra2).length + (q2 :: rb2).length +
                    sizeOf ([] : List TreeNode) < N := by
                  simp only [List.length_cons] at hsz ⊢
                  omega
                exact sortForest_cons_children_congr p (childPath pref p) 0 true []
                  (ih (q :: ra2) (q2 :: rb2) f g (childPath pref p) [] hlen hrr forestWF_nil)
          | cons n ns =>
            obtain ⟨hwfns, hwfch, hnmem⟩ := forestWF_cons hwf
            have hszc : sizeOf (n :: ns) = 1 + sizeOf n + sizeOf ns := by simp
            have hnpos := sizeOf_treeNode_pos n
            have hchlt := sizeOf_children_lt n
            by_cases h1 : n.name = p
            · cases ra with
              | nil =>
                cases rb with
                | nil => exact absurd rfl hrr
                | cons q rb2 =>
                  by_cases hd : f.isDir
                  · rw [insertParts_last_found f p pref n ns h1, if_pos hd]
                    rw [insertParts_mid_found g p q rb2 pref n ns h1]
                    rw [insertParts_last_found f p pref
                      (.mk n.name n.path n.size n.isDir
                        (insertParts g (q :: rb2) (childPath pref p) n.children)) ns h1,
                      if_pos hd]
                  · rw [insertParts_last_found f p pref n ns h1, if_neg hd]
                    rw [insertParts_mid_found g p q rb2 pref
                      (.mk n.name n.path f.size false n.children) ns h1]
                    rw [insertParts_mid_found g p q rb2 pref n ns h1]
                    rw [insertParts_last_found f p pref
                      (.mk n.name n.path n.size n.isDir
                        (insertParts g (q :: rb2) (childPath pref p) n.children)) ns h1,
                      if_neg hd]
                    rfl
              | cons q ra2 =>
                cases rb with
                | nil =>
                  by_cases hd : g.isDir
                  · rw [insertParts_mid_found f p q ra2 pref n ns h1]
                    rw [insertParts_last_found g p pref
                      (.mk n.name n.path n.size n.isDir
                        (insertParts f (q :: ra2) (childPath pref p) n.children)) ns h1,
                      if_pos hd]
                    rw [insertParts_last_found g p pref n ns h1, if_pos hd]
                    rw [insertParts_mid_found f p q ra2 pref n ns h1]
                  · rw [insertParts_mid_found f p q ra2 pref n ns h1]
                    rw [insertParts_last_found g p pref
                      (.mk n.name n.path n.size n.isDir
                        (insertParts f (q :: ra2) (childPath pref p) n.children)) ns h1,
                      if_neg hd]
                    rw [insertParts_last_found g p pref n ns h1, if_neg hd]
                    rw [insertParts_mid_found f p q ra2 pref
                      (.mk n.name n.path g.size false n.children) ns h1]
                    rfl
                | cons q2 rb2 =>
                  rw [insertParts_mid_found f p q ra2 pref n ns h1]
                  rw [insertParts_mid_found g p q2 rb2 pref
                    (.mk n.name n.path n.size n.isDir
                      (insertParts f (q :: ra2) (childPath pref p) n.children)) ns h1]
                  rw [insertParts_mid_found g p q2 rb2 pref n ns h1]
                  rw [insertParts_mid_found f p q ra2 pref
                    (.mk n.name n.path n.size n.isDir
                      (insertParts g (q2 :: rb2) (childPath pref p) n.children)) ns h1]
                  simp only [TreeNode.name, TreeNode.path, TreeNode.size, TreeNode.isDir,
                    TreeNode.children]
                  have hlen : (q :: ra2).length + (q2 :: rb2).length +
                      sizeOf n.children < N := by
                    simp only [List.length_cons] at hsz ⊢
                    omega
                  exact sortForest_cons_children_congr n.name n.path n.size n.isDir ns
                    (ih (q :: ra2) (q2 :: rb2) f g (childPath pref p) n.children hlen
                      hrr hwfch)
            · rw [insertParts_miss f p ra pref n ns h1]
              rw [insertParts_miss g p rb pref n _ h1]
              rw [insertParts_miss g p rb pref n ns h1]
              rw [insertParts_miss f p ra pref n _ h1]
              apply sortForest_cons_congr
              · have hlen : (p :: ra).length + (p :: rb).length + sizeOf ns < N := by
                  omega
                exact ih (p :: ra) (p :: rb) f g pref ns hlen hne hwfns
              · have hwfA : forestWF (insertParts g (p :: rb) pref
                    (insertParts f (p :: ra) pref ns)) :=
                  insertParts_wf _ g pref (insertParts_wf _ f pref hwfns)
                rw [nodeNames_cons, List.nodup_cons]
                refine ⟨?_, ((forestWF_iff _).mp hwfA).1⟩
                intro hmem
                rcases mem_nodeNames_insertParts g p rb pref _ hmem with hmem | hmem
                · rcases mem_nodeNames_insertParts f p ra pref ns hmem with hmem | hmem
                  · exact hnmem hmem
                  · exact h1 hmem
                · exact h1 hmem
        · cases Z with
          | nil =>
            have hL := insertParts_absent g p2 rb pref (insertParts f (p :: ra) pref [])
              (by rw [insertParts_fresh_names, List.mem_singleton]
                  exact fun hh => hpp hh.symm)
            have hR := insertParts_absent f p ra pref (insertParts g (p2 :: rb) pref [])
              (by rw [insertParts_fresh_names, List.mem_singleton]
                  exact hpp)
            rw [hL, hR, sortForest, sortForest, sortNodeList_eq_map, sortNodeList_eq_map]
            apply isort_congr
            · rw [List.map_append, List.map_append]
              exact List.perm_append_comm
            · rw [nodeNames_map_sortNode, nodeNames_append, insertParts_fresh_names,
                insertParts_fresh_names]
              simp [hpp]
          | cons n ns =>
            obtain ⟨hwfns, hwfch, hnmem⟩ := forestWF_cons hwf
            have hszc : sizeOf (n :: ns) = 1 + sizeOf n + sizeOf ns := by simp
            have hnpos := sizeOf_treeNode_pos n
            by_cases h1 : n.name = p
            · have h2 : ¬(n.name = p2) := fun hh => hpp (h1.symm.trans hh)
              rw [insertParts_found f p ra pref n ns h1]
              rw [insertParts_miss g p2 rb pref (updOne f p ra pref n) ns
                (by rw [updOne_name]; exact h2)]
              rw [insertParts_miss g p2 rb pref n ns h2]
              rw [insertParts_found f p ra pref n _ h1]
            · by_cases h2 : n.name = p2
              · rw [insertParts_miss f p ra pref n ns h1]
                rw [insertParts_found g p2 rb pref n _ h2]
                rw [insertParts_found g p2 rb pref n ns h2]
                rw [insertParts_miss f p ra pref (updOne g p2 rb pref n) ns
                  (by rw [updOne_name]; exact h1)]
              · rw [insertParts_miss f p ra pref n ns h1]
                rw [insertParts_miss g p2 rb pref n _ h2]
                rw [insertParts_miss g p2 rb pref n ns h2]
                rw [insertParts_miss f p ra pref n _ h1]
                apply sortForest_cons_congr
                · have hlen : (p :: ra).length + (p2 :: rb).length + sizeOf ns < N := by
                    omega
                  exact ih (p :: ra) (p2 :: rb) f g pref ns hlen hne hwfns
                · have hwfA : forestWF (insertParts g (p2 :: rb) pref
                      (insertParts f (p :: ra) pref ns)) :=
                    insertParts_wf _ g pref (insertParts_wf _ f pref hwfns)
                  rw [nodeNames_cons, List.nodup_cons]
                  refine ⟨?_, ((forestWF_iff _).mp hwfA).1⟩
                  intro hmem
                  rcases mem_nodeNames_insertParts g p2 rb pref _ hmem with hmem | hmem
                  · rcases mem_nodeNames_insertParts f p ra pref ns hmem with hmem | hmem
                    · exact hnmem hmem
                    · exact h1 hmem
                  · exact h2 hmem

theorem insertParts_swap {Z : List TreeNode} (pa pb : List String) (f g : FileInfo)
    (pref : String) (hne : pa ≠ pb) (hwf : forestWF Z) :
    sortForest (insertParts g pb pref (insertParts f pa pref Z)) =
      sortForest (insertParts f pa pref (insertParts g pb pref Z)) :=
  insertParts_swap_aux (pa.length + pb.length + sizeOf Z + 1) pa pb f g pref Z
    (Nat.lt_succ_self _) hne hwf

theorem insertFile_swap {Z : List TreeNode} (x y : FileInfo)
    (hwf : forestWF Z) (hxy : x.path ≠ y.path) :
    sortForest (insertFile (insertFile Z x) y) =
      sortForest (insertFile (insertFile Z y) x) := by
  by_cases hx : x.path = ""
  · simp [insertFile, hx]
  · by_cases hy : y.path = ""
    · simp [insertFile, hy]
    · simp only [insertFile, if_neg hx, if_neg hy]
      exact insertParts_swap (goSplitSlash x.path) (goSplitSlash y.path) x y ""
        (fun h => hxy (goSplitSlash_injective h)) hwf

theorem foldl_insertFile_congr :
    ∀ (l : List FileInfo) (A B : List TreeNode), forestWF A → forestWF B →
      sortForest A = sortForest B →
      sortForest (List.foldl insertFile A l) = sortForest (List.foldl insertFile B l) := by
  intro l
  induction l with
  | nil => exact fun A B _ _ hs => hs
  | cons f fs ih =>
    intro A B hwfA hwfB hs
    rw [List.foldl_cons, List.foldl_cons]
    exact ih _ _ (insertFile_wf f hwfA) (insertFile_wf f hwfB)
      (insertFile_congr f hwfA hwfB hs)

theorem foldl_insertFile_perm {l l2 : List FileInfo} (hp : l.Perm l2) :
    (∀ x ∈ l, ∀ y ∈ l, x ≠ y → x.path ≠ y.path) →
    ∀ F : List TreeNode, forestWF F →
      sortForest (List.foldl insertFile F l) =
        sortForest (List.foldl insertFile F l2) := by
  induction hp with
  | nil => exact fun _ F _ => rfl
  | cons x h ih =>
    intro hdist F hwf
    rw [List.foldl_cons, List.foldl_cons]
    exact ih (fun a ha b hb hab =>
        hdist a (List.mem_cons_of_mem x ha) b (List.mem_cons_of_mem x hb) hab)
      (insertFile F x) (insertFile_wf x hwf)
  | swap x y t =>
    intro hdist F hwf
    rw [List.foldl_cons, List.foldl_cons, List.foldl_cons, List.foldl_cons]
    apply foldl_insertFile_congr t _ _
      (insertFile_wf x (insertFile_wf y hwf))
      (insertFile_wf y (insertFile_wf x hwf))
    by_cases hxy : y = x
    · rw [hxy]
    · exact insertFile_swap y x hwf
        (hdist y (List.mem_cons_self y (x :: t))
          x (List.mem_cons_of_mem y (List.mem_cons_self x t)) hxy)
  | trans h1 h2 ih1 ih2 =>
    intro hdist F hwf
    exact (ih1 hdist F hwf).trans
      (ih2 (fun a ha b hb hab =>
          hdist a (h1.mem_iff.mpr ha) b (h1.mem_iff.mpr hb) hab)
        F hwf)

/-- C5: `Builder.BuildProjectTree` is deterministic.  For any list of
`FileInfo` entries with distinct non-empty paths and any permutation of
that list, the built forests are identical; moreover, in every node's
children list directories sort before files and, within the same kind,
children are alphabetical by name, at every level of the tree
(builder.go lines 848-941). -/
theorem buildProjectTree_deterministic (l l2 : List FileInfo)
    (hdist : l.Pairwise (fun a b => a.path ≠ b.path))
    (hnonempty : ∀ x ∈ l, x.path ≠ "")
    (hperm : l.Perm l2) :
    buildProjectTree l = buildProjectTree l2 ∧
      forestSortedOk (buildProjectTree l) = true := by
  cases l with
  | nil =>
    have h2 : ([] : List FileInfo) = l2 := List.Perm.nil_eq hperm
    rw [← h2]
    exact ⟨rfl, rfl⟩
  | cons a t =>
    cases l2 with
    | nil => exact absurd hperm.eq_nil (List.cons_ne_nil a t)
    | cons b t2 =>
      have hsymm : Symmetric (fun (a b : FileInfo) => a.path ≠ b.path) :=
        fun u v h hh => h hh.symm
      have hdforall : ∀ x ∈ a :: t, ∀ y ∈ a :: t, x ≠ y → x.path ≠ y.path := by
        intro x hx y hy hxy
        exact List.Pairwise.forall hsymm hdist hx hy hxy
      constructor
      · rw [buildProjectTree, buildProjectTree, if_neg (by simp), if_neg (by simp)]
        rw [buildForest, buildForest]
        exact foldl_insertFile_perm hperm hdforall [] forestWF_nil
      · rw [buildProjectTree, if_neg (by simp)]
        exact forestSortedOk_sortForest (buildForest (a :: t))

theorem buildProjectTree_deterministic_witness :
    (([⟨"src/c.txt", "c.txt", 1, "", true, false, false, none⟩,
       ⟨"docs", "docs", 0, "", false, false, true, none⟩] : List FileInfo).Pairwise
        (fun a b => a.path ≠ b.path) ∧
      (∀ x ∈ ([⟨"src/c.txt", "c.txt", 1, "", true, false, false, none⟩,
        ⟨"docs", "docs", 0, "", false, false, true, none⟩] : List FileInfo),
          x.path ≠ "") ∧
      ([⟨"src/c.txt", "c.txt", 1, "", true, false, false, none⟩,
        ⟨"docs", "docs", 0, "", false, false, true, none⟩] : List FileInfo).Perm
        [⟨"docs", "docs", 0, "", false, false, true, none⟩,
         ⟨"src/c.txt", "c.txt", 1, "", true, false, false, none⟩]) ∧
    (buildProjectTree
        [⟨"src/c.txt", "c.txt", 1, "", true, false, false, none⟩,
         ⟨"docs", "docs", 0, "", false, false, true, none⟩] =
      buildProjectTree
        [⟨"docs", "docs", 0, "", false, false, true, none⟩,
         ⟨"src/c.txt", "c.txt", 1, "", true, false, false, none⟩] ∧
      forestSortedOk (buildProjectTree
        [⟨"src/c.txt", "c.txt", 1, "", true, false, false, none⟩,
         ⟨"docs", "docs", 0, "", false, false, true, none⟩]) = true) :=
  ⟨⟨by decide, by decide, List.Perm.swap _ _ _⟩,
    buildProjectTree_deterministic _ _ (by decide) (by decide) (List.Perm.swap _ _ _)⟩

end Sherpa
